import Mathlib

/-!
Verification of the nba-expression-synthesis core against its specification.

The Python source is shallowly embedded: the expression datatypes of
syntax/omega_regex.py, the transition-graph model of synthesis/graph.py and
synthesis/transition_graph_to_regex.py, and the synthesis drivers are
translated into executable Lean definitions.  Mutable state is modelled by
explicit state passing; the None sentinel by Option; Python list.remove by
removal of the first structurally equal element.
-/

set_option maxRecDepth 10000

namespace NES

/-- Finite regular expressions, from syntax/omega_regex.py
(classes Epsilon, Empty, Symbol, Concat, Union, Star). -/
inductive Regex where
  | Epsilon : Regex
  | Empty : Regex
  | Symbol (s : String) : Regex
  | Concat (l r : Regex) : Regex
  | Union (l r : Regex) : Regex
  | Star (r : Regex) : Regex
deriving DecidableEq, Repr

/-- Omega regular expressions, from syntax/omega_regex.py
(classes OmegaEmpty, Repeat, ConcatOmega, UnionOmega). -/
inductive OmegaRegex where
  | OmegaEmpty : OmegaRegex
  | Repeat (r : Regex) : OmegaRegex
  | ConcatOmega (l : Regex) (r : OmegaRegex) : OmegaRegex
  | UnionOmega (l r : OmegaRegex) : OmegaRegex
deriving DecidableEq, Repr

open Regex OmegaRegex

/-- Tokens stored in the postorder deque of omega_regex.py: a number, the
Concat marker "+" or the Union marker "?". -/
inductive Tok where
  | num (n : Nat) : Tok
  | plus : Tok
  | quest : Tok
deriving DecidableEq, Repr

/-- Node-count measure used for termination of the traversal stack machine. -/
def Regex.nodes : Regex → Nat
  | .Epsilon => 1
  | Empty => 1
  | .Symbol _ => 1
  | .Concat l r => 1 + l.nodes + r.nodes
  | .Union l r => 1 + l.nodes + r.nodes
  | .Star r => 1 + r.nodes

/-- The while-loop of postorderTraversal (omega_regex.py, lines 120-156):
an explicit stack of pending subtrees and a deque of tokens, the deque head
being its left end (appendleft is cons).  Popping an Empty aborts the whole
traversal and returns the empty deque. -/
def potStack (sz : Bool) : List Regex → List Tok → List Tok
  | [], ret => ret
  | .Empty :: _, _ => []
  | .Epsilon :: st, ret => potStack sz st (Tok.num 0 :: ret)
  | .Symbol _ :: st, ret => potStack sz st (Tok.num 1 :: ret)
  | .Concat l r :: st, ret => potStack sz (l :: r :: st) (Tok.plus :: ret)
  | .Union l r :: st, ret => potStack sz (l :: r :: st) (Tok.quest :: ret)
  | .Star r :: st, ret => potStack sz (r :: st) (if sz then Tok.num 1 :: ret else ret)
termination_by st _ => (st.map Regex.nodes).sum
decreasing_by all_goals simp [Regex.nodes] <;> omega

/-- postorderTraversal of omega_regex.py: the token deque for a single regex. -/
def postorderTraversal (sz : Bool) (e : Regex) : List Tok := potStack sz [e] []

/-- determine_size of omega_regex.py (lines 97-107): drain the deque adding 1
for each "+" or "?" marker and the value of each number. -/
def determineSize (l : List Tok) : Nat :=
  l.foldl (fun s t => match t with | Tok.num n => s + n | _ => s + 1) 0

/-- One deque pop (from the right end) in solve_postorder; underflow is a
Python IndexError, modelled as none. -/
def dequePop : List Nat → Option (Nat × List Nat)
  | [] => none
  | l => match l.getLast? with
    | none => none
    | some x => some (x, l.dropLast)

/-- solve_postorder of omega_regex.py (lines 158-175): scan the token deque
left to right; numbers are appended at the right end of the working deque,
"+" and "?" pop twice from the right end and appendleft the sum or max. -/
def solvePost : List Tok → List Nat → Option Nat
  | [], st => match st.getLast? with
    | none => some 0
    | some x => some x
  | Tok.num n :: ts, st => solvePost ts (st ++ [n])
  | Tok.plus :: ts, st =>
    match dequePop st with
    | none => none
    | some (r, st1) =>
      match dequePop st1 with
      | none => none
      | some (l, st2) => solvePost ts ((r + l) :: st2)
  | Tok.quest :: ts, st =>
    match dequePop st with
    | none => none
    | some (r, st1) =>
      match dequePop st1 with
      | none => none
      | some (l, st2) => solvePost ts ((if l < r then r else l) :: st2)

/-- regex_tllen with size=False (the length metric, Regex.__len__);
none models a Python exception from a deque underflow. -/
def regexTllen (e : Regex) : Option Nat := solvePost (postorderTraversal false e) []

/-- regex_tllen with size=True (the size metric, Regex.size). -/
def regexSize (e : Regex) : Nat := determineSize (postorderTraversal true e)

/-- The while-loop of postorderTraversalOmega (omega_regex.py, lines 284-310).
Finite subtrees are collapsed to their regex_tllen value at traversal time;
an OmegaEmpty node matches no case of the Python match statement and is
silently dropped.  The none result models a raised exception in a finite
sub-computation (only possible for the length metric). -/
def potStackO (sz : Bool) : List OmegaRegex → List Tok → Option (List Tok)
  | [], ret => some ret
  | .OmegaEmpty :: st, ret => potStackO sz st ret
  | .Repeat r :: st, ret =>
    match (if sz then some (regexSize r) else regexTllen r) with
    | none => none
    | some n => potStackO sz st (Tok.num n :: (if sz then Tok.num 1 :: ret else ret))
  | .ConcatOmega l r :: st, ret =>
    match (if sz then some (regexSize l) else regexTllen l) with
    | none => none
    | some n => potStackO sz (r :: st) (Tok.num n :: Tok.plus :: ret)
  | .UnionOmega l r :: st, ret => potStackO sz (l :: r :: st) (Tok.quest :: ret)
termination_by st _ => (st.map (fun o => sizeOf o)).sum
decreasing_by all_goals simp <;> omega

/-- omega_regex_tllen with size=True (OmegaRegex.size). -/
def omegaSize (e : OmegaRegex) : Option Nat :=
  (potStackO true [e] []).map determineSize

/-- Whether a finite regex contains an Empty node anywhere. -/
def Regex.hasEmpty : Regex → Bool
  | .Empty => true
  | .Epsilon | .Symbol _ => false
  | .Concat l r | .Union l r => l.hasEmpty || r.hasEmpty
  | .Star r => r.hasEmpty

/-- The number of Symbol, Star, Concat and Union nodes of a finite regex
(Epsilon and Empty count 0). -/
def Regex.opCount : Regex → Nat
  | .Epsilon | .Empty => 0
  | .Symbol _ => 1
  | .Concat l r | .Union l r => 1 + l.opCount + r.opCount
  | .Star r => 1 + r.opCount

/-- Recursive characterization of the finite size metric: 0 if the regex
contains an Empty node (the traversal aborts), else its operator count. -/
def sizeSpecR (e : Regex) : Nat := if e.hasEmpty then 0 else e.opCount

/-- Recursive characterization of the omega size metric: each Repeat,
ConcatOmega and UnionOmega node counts 1, finite components contribute
their (abort-aware) finite size, OmegaEmpty counts 0. -/
def sizeSpecO : OmegaRegex → Nat
  | .OmegaEmpty => 0
  | .Repeat r => 1 + sizeSpecR r
  | .ConcatOmega l r => 1 + sizeSpecR l + sizeSpecO r
  | .UnionOmega l r => 1 + sizeSpecO l + sizeSpecO r

/-- The length metric as the specification states it: 0 on Epsilon and Empty,
1 on Sym, sum on Concat, same on Star, max on Union.  This definition follows
the words of the spec (section 3) and is compared against the code. -/
def lengthSpec : Regex → Nat
  | .Epsilon | .Empty => 0
  | .Symbol _ => 1
  | .Concat l r => lengthSpec l + lengthSpec r
  | .Union l r => max (lengthSpec l) (lengthSpec r)
  | .Star r => lengthSpec r

/-- The size metric as the specification states it: 1 per Sym, Star, Repeat,
sum on Concat, max on Union. -/
def sizeSpecClaim : Regex → Nat
  | .Epsilon | .Empty => 0
  | .Symbol _ => 1
  | .Concat l r => sizeSpecClaim l + sizeSpecClaim r
  | .Union l r => max (sizeSpecClaim l) (sizeSpecClaim r)
  | .Star r => 1 + sizeSpecClaim r

/-- The omega size metric as the specification states it. -/
def sizeSpecClaimO : OmegaRegex → Nat
  | .OmegaEmpty => 0
  | .Repeat r => 1 + sizeSpecClaim r
  | .ConcatOmega l r => sizeSpecClaim l + sizeSpecClaimO r
  | .UnionOmega l r => max (sizeSpecClaimO l) (sizeSpecClaimO r)

end NES

namespace NES

open Regex OmegaRegex

/-- Preorder emission sequence of the traversal: the tokens a node pushes to
the front of the deque, in visiting order (the final deque is its reverse). -/
def preTok (sz : Bool) : Regex → List Tok
  | .Epsilon => [Tok.num 0]
  | .Empty => []
  | .Symbol _ => [Tok.num 1]
  | .Concat l r => Tok.plus :: (preTok sz l ++ preTok sz r)
  | .Union l r => Tok.quest :: (preTok sz l ++ preTok sz r)
  | .Star r => (if sz then [Tok.num 1] else []) ++ preTok sz r

/-! ## Transition graph model (synthesis/graph.py and transition_graph_to_regex.py) -/

/-- An edge of the transition graph (synthesis/graph.py, class Edge).
Python structural equality of edges compares src, dst and label only;
the accepting flag is excluded.  List removal therefore matches on the
first three fields, written out explicitly below. -/
structure Edge where
  src : Nat
  dst : Nat
  label : Regex
  accepting : Bool
deriving DecidableEq, Repr

/-- Python Edge.__eq__: src, dst and label agree; accepting is ignored. -/
def edgeMatch (a : Edge) (b : Edge) : Bool :=
  decide (b.src = a.src ∧ b.dst = a.dst ∧ b.label = a.label)

/-- A vertex: two adjacency lists (synthesis/graph.py, class Vertex). -/
structure Vtx where
  out_edges : List Edge
  in_edges : List Edge
deriving DecidableEq, Repr

/-- The transition graph with accepting-transition side lists
(class Graph of graph.py extended by class tGraph of
transition_graph_to_regex.py).  The vertices dict is an association list in
insertion order; the final_states set of small naturals is kept as a sorted
duplicate-free list, matching the ascending iteration order of a CPython
set of small ints. -/
structure TGraph where
  num_states : Nat
  initial_state : Nat
  final_states : List Nat
  vertices : List (Nat × Vtx)
  acc_trans : List Edge
  nonacc_trans : List Edge
deriving DecidableEq, Repr

/-- Vertex lookup; Python raises KeyError on a missing key, all call sites
below access present keys, so a missing key yields the empty vertex. -/
def TGraph.vtx (g : TGraph) (v : Nat) : Vtx :=
  match g.vertices.lookup v with
  | some w => w
  | none => ⟨[], []⟩

/-- Update the vertex stored under a key (no-op on a missing key). -/
def TGraph.updVtx (g : TGraph) (v : Nat) (f : Vtx → Vtx) : TGraph :=
  { g with vertices := g.vertices.map (fun p => if p.1 = v then (p.1, f p.2) else p) }

/-- Remove the first element satisfying the predicate (Python list.remove). -/
def removeFirst (p : α → Bool) : List α → List α
  | [] => []
  | x :: xs => if p x then xs else x :: removeFirst p xs

/-- The structural-equality predicate of tGraph.remove_edge (the accepting
flag is ignored by Python edge equality). -/
def remP (src dst : Nat) (label : Regex) : Edge → Bool :=
  fun f => decide (f.src = src ∧ f.dst = dst ∧ f.label = label)

/-- Replace the first element satisfying the predicate. -/
def replaceFirst (p : α → Bool) (y : α) : List α → List α
  | [] => []
  | x :: xs => if p x then y :: xs else x :: replaceFirst p y xs

/-- Sorted duplicate-free insertion, the model of Python set.add for the
small-int final_states set. -/
def sinsert (v : Nat) : List Nat → List Nat
  | [] => [v]
  | x :: xs => if v < x then v :: x :: xs else if v = x then x :: xs else x :: sinsert v xs

/-- tGraph.add_edge (transition_graph_to_regex.py, lines 18-24): append the
edge to both adjacency lists, record it in the matching trans list, and mark
the source as final when the edge is accepting. -/
def TGraph.addEdge (g : TGraph) (src dst : Nat) (label : Regex) (acc : Bool) : TGraph :=
  let e : Edge := ⟨src, dst, label, acc⟩
  let g1 := g.updVtx src (fun w => { w with out_edges := w.out_edges ++ [e] })
  let g2 := g1.updVtx dst (fun w => { w with in_edges := w.in_edges ++ [e] })
  if acc then
    { g2 with acc_trans := g2.acc_trans ++ [e], final_states := sinsert src g2.final_states }
  else
    { g2 with nonacc_trans := g2.nonacc_trans ++ [⟨src, dst, label, false⟩] }

/-- Accepting out-edges of a state (get_accepting_transitions_from). -/
def TGraph.accFrom (g : TGraph) (v : Nat) : List Edge :=
  (g.vtx v).out_edges.filter (fun e => e.accepting)

/-- Non-accepting out-edges of a state (get_nonaccepting_transitions_from). -/
def TGraph.nonaccFrom (g : TGraph) (v : Nat) : List Edge :=
  (g.vtx v).out_edges.filter (fun e => !e.accepting)

/-- state_pseudoaccepting (lines 58-59): both kinds of out-edges exist. -/
def TGraph.pseudoAccepting (g : TGraph) (v : Nat) : Bool :=
  !(g.nonaccFrom v).isEmpty && !(g.accFrom v).isEmpty

/-- tGraph.remove_edge (lines 26-38): remove the first structurally equal
edge from both adjacency lists and from the trans list selected by the flag,
then drop src from final_states if it no longer has an accepting out-edge. -/
def TGraph.removeEdge (g : TGraph) (src dst : Nat) (label : Regex) (acc : Bool) : TGraph :=
  let p := fun (f : Edge) => decide (f.src = src ∧ f.dst = dst ∧ f.label = label)
  let g1 := g.updVtx src (fun w => { w with out_edges := removeFirst p w.out_edges })
  let g2 := g1.updVtx dst (fun w => { w with in_edges := removeFirst p w.in_edges })
  let g3 :=
    if acc then { g2 with acc_trans := removeFirst p g2.acc_trans }
    else { g2 with nonacc_trans := removeFirst p g2.nonacc_trans }
  if src ∈ g3.final_states ∧ (g3.accFrom src).isEmpty then
    { g3 with final_states := g3.final_states.erase src }
  else g3

/-- contain_self_loop (lines 228-232): the FIRST self-loop of the vertex in
out-edge order, if any. -/
def TGraph.selfLoop (g : TGraph) (v : Nat) : Option Edge :=
  (g.vtx v).out_edges.find? (fun e => e.src == e.dst)

/-- The label attached to a ripped pair of edges (rip, lines 242-245). -/
def ripLabel (rrip : Option Regex) (rin rout : Regex) : Regex :=
  match rrip with
  | none => Regex.Concat rin rout
  | some rl => Regex.Concat rin (Regex.Concat (Regex.Star rl) rout)

/-- The r_rip of rip: the label of the first self-loop found. -/
def ripRrip (g : TGraph) (v : Nat) : Option Regex :=
  (g.selfLoop v).map (fun e => e.label)

/-- The added_edges list of rip: one edge per pair of a non-self in-edge and
a non-self out-edge of the ripped vertex, in nested loop order. -/
def ripAdded (g : TGraph) (v : Nat) : List (Nat × Nat × Regex × Bool) :=
  (g.vtx v).in_edges.flatMap (fun ein =>
    (g.vtx v).out_edges.filterMap (fun eout =>
      if ein.src = v ∨ eout.dst = v then none
      else some (ein.src, eout.dst, ripLabel (ripRrip g v) ein.label eout.label, ein.accepting)))

/-- rip (lines 234-254).  Parameters acc, v_start, v_end of the Python
function are unused by its body and omitted.  The new-edge list is computed
from the untouched adjacency of the ripped vertex; the first removal loop
(which strips the self-loops out of the out list of the ripped vertex before
the second loop iterates it) and the second removal loop bypass remove_edge,
so neither the trans lists nor final_states are updated; added edges go
through add_edge; finally the vertex is deleted and num_states decremented.
The r_rip value (the label of the first self-loop found) and the
added_edges list (one edge per pair of a non-self in-edge and a non-self
out-edge of the ripped vertex, in nested loop order) are split into the two
named definitions above rip. -/
def ripStage1 (g : TGraph) (v : Nat) : TGraph :=
  (g.vtx v).in_edges.foldl
    (fun h ein => h.updVtx ein.src
      (fun w => { w with out_edges := removeFirst (edgeMatch ein) w.out_edges })) g

def ripStage2 (g : TGraph) (v : Nat) : TGraph :=
  ((ripStage1 g v).vtx v).out_edges.foldl
    (fun h eout => h.updVtx eout.dst
      (fun w => { w with in_edges := removeFirst (edgeMatch eout) w.in_edges })) (ripStage1 g v)

def ripStage3 (g : TGraph) (v : Nat) : TGraph :=
  (ripAdded g v).foldl (fun h t => h.addEdge t.1 t.2.1 t.2.2.1 t.2.2.2) (ripStage2 g v)

def TGraph.rip (g : TGraph) (v : Nat) : TGraph :=
  { ripStage3 g v with vertices := (ripStage3 g v).vertices.filter (fun p => p.1 ≠ v),
                       num_states := (ripStage3 g v).num_states - 1 }

/-- The duplicate-edge key of combine_duplicate_edge (line 364). -/
def edgeKey (e : Edge) : Nat × Nat × Bool := (e.src, e.dst, e.accepting)

/-- All out-edges of the graph in vertex-list order (the iteration order of
combine_duplicate_edge over vertices.values() and out_edges). -/
def TGraph.allOut (g : TGraph) : List Edge :=
  g.vertices.flatMap (fun p => p.2.out_edges)

/-- Append an edge to the group holding its key, creating the group at the
end on a fresh key (the defaultdict of combine_duplicate_edge in first-seen
key order). -/
def addToGroups (gs : List ((Nat × Nat × Bool) × List Edge)) (e : Edge) :
    List ((Nat × Nat × Bool) × List Edge) :=
  if gs.any (fun p => p.1 = edgeKey e) then
    gs.map (fun p => if p.1 = edgeKey e then (p.1, p.2 ++ [e]) else p)
  else gs ++ [(edgeKey e, [e])]

/-- The edge_dict of combine_duplicate_edge. -/
def TGraph.edgeGroups (g : TGraph) : List ((Nat × Nat × Bool) × List Edge) :=
  g.allOut.foldl addToGroups []

/-- One full coalescing step of combine_duplicate_edge for the edges of a
single key (lines 367-388): Union-fold the labels left to right into the
first edge (an in-place mutation of the shared edge object, which updates
that edge in both adjacency lists and in neither trans list), then remove
the remaining edges via remove_edge. -/
def combineGroup (g : TGraph) (es : List Edge) : TGraph :=
  match es with
  | [] => g
  | [_] => g
  | e0 :: rest =>
    let newLabel := rest.foldl (fun acc e => Regex.Union acc e.label) e0.label
    let pexact := fun (f : Edge) => decide (f = e0)
    let enew : Edge := { e0 with label := newLabel }
    let g1 := g.updVtx e0.src (fun w => { w with out_edges := replaceFirst pexact enew w.out_edges })
    let g2 := g1.updVtx e0.dst (fun w => { w with in_edges := replaceFirst pexact enew w.in_edges })
    rest.foldl (fun h e => h.removeEdge e.src e.dst e.label e.accepting) g2

/-- combine_duplicate_edge (lines 360-393).  Each invocation of the inner
combine_one_duplicate_edge coalesces the first key still holding at least
two edges and returns True; iterating it to the fixed point is the same as
coalescing every key group of the initially built edge_dict in first-seen
order, since coalescing one key adds no edge and leaves the other groups
untouched.  The label mutation targets the first occurrence of the first
group edge with all four fields equal: an earlier occurrence equal in the
three structural fields would have the other flag and so belong to a
different key, while an earlier occurrence with equal flag would itself be
the first edge of this group. -/
def TGraph.combineDuplicateEdge (g : TGraph) : TGraph :=
  g.edgeGroups.foldl (fun h kp => combineGroup h kp.2) g

/-! ## State elimination (find_path, find_accpath, find_nonaccpath) -/

/-- find_rip_vertex (lines 217-226): the smallest state other than the two
endpoints, or none. -/
def TGraph.findRipVertex (g : TGraph) (vs ve : Nat) : Option Nat :=
  let states := (g.vertices.map (fun p => p.1)).erase vs
  let states := if vs ≠ ve then states.erase ve else states
  states.min?

/-- The while-loop shared by the three path queries: rip the chosen vertex,
coalesce duplicates, repeat.  Each rip deletes one vertex, so the vertex
count of the input graph bounds the iterations; the fuel argument carries
that bound. -/
def elimLoop : Nat → TGraph → Nat → Nat → TGraph
  | 0, g, _, _ => g
  | fuel + 1, g, vs, ve =>
    match g.findRipVertex vs ve with
    | none => g
    | some v => elimLoop fuel ((g.rip v).combineDuplicateEdge) vs ve

/-- Left Union-fold of the labels of a list of edges, with the None seed of
the r1/r2 accumulators of the path queries. -/
def unionFoldLabels (es : List Edge) : Option Regex :=
  es.foldl (fun acc e =>
    match acc with
    | none => some e.label
    | some r => some (Regex.Union r e.label)) none

/-- combine_final (lines 212-215): r3 and r4 are ignored. -/
def combineFinal (r1 : Option Regex) (r2 : Regex) : Regex :=
  match r1 with
  | none => r2
  | some a => Regex.Concat (Regex.Star a) r2

/-- find_path (lines 121-146) on a deep copy, modelled by value passing. -/
def TGraph.findPath (g : TGraph) (vs ve : Nat) : Option Regex :=
  let g1 := elimLoop g.vertices.length g vs ve
  let r1 := unionFoldLabels ((g1.vtx vs).out_edges.filter (fun e => e.dst == vs))
  let r2 := unionFoldLabels ((g1.vtx vs).out_edges.filter (fun e => e.dst == ve))
  match r2 with
  | none => none
  | some r2v => if vs = ve then some r2v else some (combineFinal r1 r2v)

/-- find_accpath (lines 149-178): r1 keeps accepting self-loops on v_start
(only when v_start differs from v_end); r2 skips edges from v_start that are
not accepting. -/
def TGraph.findAccpath (g : TGraph) (vs ve : Nat) : Option Regex :=
  let g1 := elimLoop g.vertices.length g vs ve
  let r1 := unionFoldLabels ((g1.vtx vs).out_edges.filter
    (fun e => e.dst == vs && e.dst != ve && e.accepting))
  let r2 := unionFoldLabels ((g1.vtx vs).out_edges.filter
    (fun e => e.dst == ve && !(e.src == vs && !e.accepting)))
  match r2 with
  | none => none
  | some r2v => if vs = ve then some r2v else some (combineFinal r1 r2v)

/-- find_nonaccpath (lines 180-210), the symmetric query. -/
def TGraph.findNonaccpath (g : TGraph) (vs ve : Nat) : Option Regex :=
  let g1 := elimLoop g.vertices.length g vs ve
  let r1 := unionFoldLabels ((g1.vtx vs).out_edges.filter
    (fun e => e.dst == vs && e.dst != ve && !e.accepting))
  let r2 := unionFoldLabels ((g1.vtx vs).out_edges.filter
    (fun e => e.dst == ve && !(e.src == vs && e.accepting)))
  match r2 with
  | none => none
  | some r2v => if vs = ve then some r2v else some (combineFinal r1 r2v)

/-! ## McNaughton-Yamada (mcnaughton_yamada, lines 61-118) -/

/-- Direct edges between two states, in out-edge order (the precomputed
transitions table). -/
def TGraph.transOf (g : TGraph) (ip jp : Nat) : List Edge :=
  (g.vtx ip).out_edges.filter (fun e => e.dst == jp)

/-- The memoized recursion r(i_p, j_p, k) with the third argument shifted by
one: the Lean index n stands for the Python k = n - 1, so index 0 is the
Python base case k = -1.  The acceptance filter applies at the base case
whenever the row source i_p equals the start state i of the top-level call. -/
def mcnyR (g : TGraph) (i : Nat) (acc : Option Bool) : Nat → Nat → Nat → Option Regex
  | 0, ip, jp =>
    let trans := g.transOf ip jp
    let trans :=
      if ip = i then
        match acc with
        | some true => trans.filter (fun e => e.accepting)
        | some false => trans.filter (fun e => !e.accepting)
        | none => trans
      else trans
    unionFoldLabels trans
  | n + 1, ip, jp =>
    if n = jp then mcnyR g i acc n ip jp
    else if n = ip then
      match mcnyR g i acc n ip ip, mcnyR g i acc n ip jp with
      | none, go => go
      | some _, none => none
      | some rep, some go => some (Regex.Concat (Regex.Star rep) go)
    else
      let prev := mcnyR g i acc n ip n
      let rep := mcnyR g i acc n n n
      let go := mcnyR g i acc n n jp
      let ij := mcnyR g i acc n ip jp
      match prev, go with
      | none, _ => ij
      | some _, none => ij
      | some pv, some gv =>
        let result :=
          match rep with
          | none => Regex.Concat pv gv
          | some rv => Regex.Concat pv (Regex.Concat (Regex.Star rv) gv)
        match ij with
        | none => some result
        | some ijv => some (Regex.Union ijv result)

/-- mcnaughton_yamada with explicit endpoints: the top-level call
r(i, j, num_states - 1), index-shifted. -/
def TGraph.mcny (g : TGraph) (vs ve : Nat) (acc : Option Bool) : Option Regex :=
  mcnyR g vs acc g.num_states vs ve

/-! ## Lasso drivers -/

/-- The per-final-state assembly shared by all four drivers
(e.g. lines 316-325): skip when the accepting cycle is None, prepend
Star(N) when the non-accepting cycle exists, prepend the path component
when it exists. -/
def lassoContribution (path1 path2 path3 : Option Regex) : Option OmegaRegex :=
  match path2 with
  | none => none
  | some p2 =>
    let cyc := match path3 with
      | none => p2
      | some p3 => Regex.Concat (Regex.Star p3) p2
    match path1 with
    | none => some (OmegaRegex.Repeat cyc)
    | some p1 => some (OmegaRegex.ConcatOmega p1 (OmegaRegex.Repeat cyc))

/-- Left fold with UnionOmega over the contribution list (lines 326-331). -/
def unionOFold : List OmegaRegex → OmegaRegex
  | [] => OmegaRegex.OmegaEmpty
  | c :: cs => cs.foldl OmegaRegex.UnionOmega c

/-- path1 of taut_to_regex_bmc (line 313). -/
def bmcPath1 (g : TGraph) (f : Nat) : Option Regex :=
  if g.initial_state ≠ f then g.findPath g.initial_state f else none

/-- path2 of taut_to_regex_bmc (line 314). -/
def bmcPath2 (g : TGraph) (f : Nat) : Option Regex := g.findAccpath f f

/-- path3 of taut_to_regex_bmc (line 315), guarded by pseudo-acceptance. -/
def bmcPath3 (g : TGraph) (f : Nat) : Option Regex :=
  if g.pseudoAccepting f then g.findNonaccpath f f else none

/-- path3 of simp_taut_to_regex_bmc (line 341): no guard. -/
def simpBmcPath3 (g : TGraph) (f : Nat) : Option Regex := g.findNonaccpath f f

/-- path1 of taut_to_regex_mny (line 261). -/
def mnyPath1 (g : TGraph) (f : Nat) : Option Regex :=
  if g.initial_state ≠ f then g.mcny g.initial_state f none else none

/-- path2 of taut_to_regex_mny (line 262). -/
def mnyPath2 (g : TGraph) (f : Nat) : Option Regex := g.mcny f f (some true)

/-- path3 of taut_to_regex_mny (line 263), guarded by pseudo-acceptance;
simp_taut_to_regex_mny (line 290) carries the same guard. -/
def mnyPath3 (g : TGraph) (f : Nat) : Option Regex :=
  if g.pseudoAccepting f then g.mcny f f (some false) else none

/-- taut_to_regex_bmc (lines 308-331).  The first component is the returned
omega regex; the second is the state of the argument graph after the call:
combine_duplicate_edge mutates it in place, everything afterwards works on
deep copies. -/
def tautToRegexBmc (g : TGraph) : OmegaRegex × TGraph :=
  let g1 := g.combineDuplicateEdge
  let contribs := g1.final_states.filterMap
    (fun f => lassoContribution (bmcPath1 g1 f) (bmcPath2 g1 f) (bmcPath3 g1 f))
  (unionOFold contribs, g1)

/-- The pre-simplification body of simp_taut_to_regex_bmc (lines 334-357):
identical to taut_to_regex_bmc except that path3 is computed without the
pseudo-accepting guard.  The simplify decorator (regex_utils, not part of
this repository) post-processes the first component. -/
def simpTautToRegexBmcCore (g : TGraph) : OmegaRegex × TGraph :=
  let g1 := g.combineDuplicateEdge
  let contribs := g1.final_states.filterMap
    (fun f => lassoContribution (bmcPath1 g1 f) (bmcPath2 g1 f) (simpBmcPath3 g1 f))
  (unionOFold contribs, g1)

/-- taut_to_regex_mny (lines 256-280). -/
def tautToRegexMny (g : TGraph) : OmegaRegex × TGraph :=
  let g1 := g.combineDuplicateEdge
  let contribs := g1.final_states.filterMap
    (fun f => lassoContribution (mnyPath1 g1 f) (mnyPath2 g1 f) (mnyPath3 g1 f))
  (unionOFold contribs, g1)

/-- The pre-simplification body of simp_taut_to_regex_mny (lines 283-306):
the same computation as taut_to_regex_mny, guard included. -/
def simpTautToRegexMnyCore (g : TGraph) : OmegaRegex × TGraph :=
  let g1 := g.combineDuplicateEdge
  let contribs := g1.final_states.filterMap
    (fun f => lassoContribution (mnyPath1 g1 f) (mnyPath2 g1 f) (mnyPath3 g1 f))
  (unionOFold contribs, g1)

/-! ## Import and method selection -/

/-- The empty transition graph of Graph.__init__: vertices 0..n-1 in order,
no edges, no finals. -/
def emptyTGraph (n init : Nat) : TGraph :=
  ⟨n, init, [], (List.range n).map (fun i => (i, ⟨[], []⟩)), [], []⟩

/-- aut_to_tgraph (transition_graph_pipeline.py): add one Symbol-labelled
edge per automaton transition. -/
def importTGraph (n init : Nat) (es : List (Nat × Nat × String × Bool)) : TGraph :=
  es.foldl (fun g t => g.addEdge t.1 t.2.1 (Regex.Symbol t.2.2.1) t.2.2.2) (emptyTGraph n init)

/-- The number of accepting states used by transition_or_state_aut
(num_accepting_states via get_finals). -/
def TGraph.nAcc (g : TGraph) : Nat := g.final_states.length

/-- The number of states used by transition_or_state_aut (len of the
vertices dict). -/
def TGraph.nStates (g : TGraph) : Nat := g.vertices.length

/-- The selection logic of transition_or_state_aut (regex_methods.py,
lines 87-115) on the two construction results, None denoting a failed or
timed-out construction.  When both succeed, the branch condition of line 109
returns the transition-shape automaton. -/
def transitionOrStateAut (resultTransition resultState : Option TGraph) : Option TGraph :=
  match resultTransition, resultState with
  | none, none => none
  | none, some a => some a
  | some a, none => some a
  | some at_, some as_ =>
    if as_.nAcc > at_.nAcc ∨ (as_.nAcc = at_.nAcc ∧ at_.nStates < as_.nStates) then some at_
    else some as_

/-! ## Language semantics and structural predicates -/

/-- Words over the label alphabet matched by a finite regex.  Letters are
the opaque label strings carried by Symbol leaves. -/
inductive RMatch : Regex → List String → Prop where
  | sym (s : String) : RMatch (Regex.Symbol s) [s]
  | eps : RMatch Regex.Epsilon []
  | cat {l r : Regex} {w1 w2 : List String} :
      RMatch l w1 → RMatch r w2 → RMatch (Regex.Concat l r) (w1 ++ w2)
  | unionL {l r : Regex} {w : List String} :
      RMatch l w → RMatch (Regex.Union l r) w
  | unionR {l r : Regex} {w : List String} :
      RMatch r w → RMatch (Regex.Union l r) w
  | starNil (e : Regex) : RMatch (Regex.Star e) []
  | starCons {e : Regex} {w1 w2 : List String} :
      RMatch e w1 → RMatch (Regex.Star e) w2 → RMatch (Regex.Star e) (w1 ++ w2)

/-- Syntactic nullability: does the regex match the empty word. -/
def Regex.nullable : Regex → Bool
  | .Epsilon => true
  | .Empty => false
  | .Symbol _ => false
  | .Concat l r => l.nullable && r.nullable
  | .Union l r => l.nullable || r.nullable
  | .Star _ => true

/-- Expressions producible by the synthesis core: Symbol leaves combined by
Concat, Union and Star.  Neither Epsilon nor Empty belongs. -/
inductive SynthBuilt : Regex → Prop where
  | sym (s : String) : SynthBuilt (Regex.Symbol s)
  | cat {l r : Regex} : SynthBuilt l → SynthBuilt r → SynthBuilt (Regex.Concat l r)
  | uni {l r : Regex} : SynthBuilt l → SynthBuilt r → SynthBuilt (Regex.Union l r)
  | star {r : Regex} : SynthBuilt r → SynthBuilt (Regex.Star r)

/-- An edge recorded in any adjacency list of the graph. -/
def TGraph.edgeIn (g : TGraph) (e : Edge) : Prop :=
  ∃ p ∈ g.vertices, e ∈ p.2.out_edges ∨ e ∈ p.2.in_edges

/-- Every adjacency edge of the graph carries a Symbol label, as the graphs
produced by aut_to_tgraph do. -/
def TGraph.symbolic (g : TGraph) : Prop :=
  ∀ e : Edge, g.edgeIn e → ∃ s, e.label = Regex.Symbol s

/-- Adjacency well-formedness: an edge stored under a vertex key has that
key as the matching endpoint. -/
def TGraph.wf (g : TGraph) : Prop :=
  ∀ p ∈ g.vertices, (∀ e ∈ p.2.out_edges, e.src = p.1) ∧ (∀ e ∈ p.2.in_edges, e.dst = p.1)

/-- The letter s names an edge of g with accepting flag b. -/
def TGraph.edgeLetter (g : TGraph) (b : Bool) (s : String) : Prop :=
  ∃ e : Edge, g.edgeIn e ∧ e.accepting = b ∧ e.label = Regex.Symbol s

/-- Every nonempty word of the language of e opens with a letter satisfying
F. -/
def firstOK (F : String → Prop) (e : Regex) : Prop :=
  ∀ s rest, RMatch e (s :: rest) → F s

/-- The per-label invariant of state elimination relative to the original
graph g0: a synthesis-built, non-nullable expression whose words open with
a letter of a g0-edge of accepting flag b. -/
def LabelOK (g0 : TGraph) (b : Bool) (l : Regex) : Prop :=
  SynthBuilt l ∧ l.nullable = false ∧ firstOK (g0.edgeLetter b) l

/-- The label part of the invariant carried through state elimination
relative to the original graph g0: every adjacency edge satisfies the
per-label invariant at its own accepting flag. -/
def ElimInvP (g0 g : TGraph) : Prop :=
  ∀ e : Edge, g.edgeIn e → LabelOK g0 e.accepting e.label

/-- The full state-elimination invariant: adjacency well-formedness together
with the label invariant. -/
def ElimInv (g0 g : TGraph) : Prop :=
  g.wf ∧ ElimInvP g0 g

/-- Does the regex consist of a single Symbol leaf. -/
def Regex.isSymbol : Regex → Bool
  | .Symbol _ => true
  | _ => false

/-- Decidable bounded form of TGraph.symbolic: every stored adjacency edge
carries a Symbol label. -/
def TGraph.labelsSymbolic (g : TGraph) : Prop :=
  ∀ p ∈ g.vertices,
    (∀ e ∈ p.2.out_edges, e.label.isSymbol = true) ∧
    (∀ e ∈ p.2.in_edges, e.label.isSymbol = true)

instance (g : TGraph) : Decidable g.labelsSymbolic := by
  unfold TGraph.labelsSymbolic
  infer_instance

instance (g : TGraph) : Decidable g.wf := by
  unfold TGraph.wf
  infer_instance

/-! ## Shapes used by the union-nesting claim -/

/-- Explicit left-leaning union of omega contributions:
c1, [c2, ..., ck] becomes UnionOmega( ... UnionOmega(c1, c2) ..., ck). -/
def leftNestedO (c : OmegaRegex) : List OmegaRegex → OmegaRegex
  | [] => c
  | d :: ds => leftNestedO (OmegaRegex.UnionOmega c d) ds

/-- Explicit left-leaning union of finite regexes. -/
def leftNestedR (c : Regex) : List Regex → Regex
  | [] => c
  | d :: ds => leftNestedR (Regex.Union c d) ds

/-! ## Predicates used by the trans-list invariant claim -/

/-- A structurally equal edge (src, dst and label, the accepting flag being
excluded from Python edge equality) occurs in the list. -/
def structIn (e : Edge) (l : List Edge) : Prop :=
  ∃ f ∈ l, f.src = e.src ∧ f.dst = e.dst ∧ f.label = e.label

instance (e : Edge) (l : List Edge) : Decidable (structIn e l) := by
  unfold structIn
  infer_instance

/-- The invariant stated by the specification for reachable transition
graphs: every out-edge has a structurally equal edge in the in list of its
destination and in exactly one of the two trans lists, and a state is final
iff it has an accepting out-edge. -/
def SpecInv (g : TGraph) : Prop :=
  (∀ p ∈ g.vertices, ∀ e ∈ p.2.out_edges,
    structIn e (g.vtx e.dst).in_edges ∧
      (e.accepting = true → structIn e g.acc_trans ∧ ¬ structIn e g.nonacc_trans) ∧
      (e.accepting = false → structIn e g.nonacc_trans ∧ ¬ structIn e g.acc_trans)) ∧
  (∀ s, s ∈ g.final_states ↔ ∃ e ∈ (g.vtx s).out_edges, e.accepting = true)

/-- No two edges of the import list share source, destination and label but
differ in the accepting flag (needed for the exactly-one part: Python edge
equality ignores the flag). -/
def flagFunctional (es : List (Nat × Nat × String × Bool)) : Prop :=
  ∀ a ∈ es, ∀ b ∈ es, a.1 = b.1 → a.2.1 = b.2.1 → a.2.2.1 = b.2.2.1 → a.2.2.2 = b.2.2.2

/-- All endpoints of the import list name states of the automaton (Python
would raise KeyError otherwise). -/
def endpointsValid (n : Nat) (es : List (Nat × Nat × String × Bool)) : Prop :=
  ∀ t ∈ es, t.1 < n ∧ t.2.1 < n

/-- The strengthened invariant carried through the import fold, stated via
vertex lookup.  The tuple-support component ties every adjacency edge to an
entry of the import list. -/
def ImpInv (n : Nat) (es : List (Nat × Nat × String × Bool)) (g : TGraph) : Prop :=
  (g.vertices.map Prod.fst = List.range n) ∧
  (∀ v e, e ∈ (g.vtx v).out_edges → e.src = v) ∧
  (∀ v e, e ∈ (g.vtx v).in_edges → e.dst = v) ∧
  (∀ v e, e ∈ (g.vtx v).out_edges →
    e ∈ (g.vtx e.dst).in_edges ∧
    (e.accepting = true → e ∈ g.acc_trans) ∧
    (e.accepting = false → e ∈ g.nonacc_trans)) ∧
  (∀ e ∈ g.acc_trans, e.accepting = true ∧ e ∈ (g.vtx e.src).out_edges) ∧
  (∀ e ∈ g.nonacc_trans, e.accepting = false ∧ e ∈ (g.vtx e.src).out_edges) ∧
  (∀ s, s ∈ g.final_states ↔ ∃ e ∈ (g.vtx s).out_edges, e.accepting = true) ∧
  (∀ v e, e ∈ (g.vtx v).out_edges →
    ∃ str, e.label = Regex.Symbol str ∧ (e.src, e.dst, str, e.accepting) ∈ es)

instance (n : Nat) (es : List (Nat × Nat × String × Bool)) : Decidable (endpointsValid n es) := by
  unfold endpointsValid
  infer_instance

instance (es : List (Nat × Nat × String × Bool)) : Decidable (flagFunctional es) := by
  unfold flagFunctional
  infer_instance

/-! ## Concrete graphs used as test inputs -/

/-- Two parallel non-accepting edges 0 to 1 labelled a and b. -/
def gDup : TGraph := importTGraph 2 0 [(0, 1, "a", false), (0, 1, "b", false)]

/-- Three parallel non-accepting edges 0 to 1 labelled a, b, c. -/
def gPar : TGraph :=
  importTGraph 2 0 [(0, 1, "a", false), (0, 1, "b", false), (0, 1, "c", false)]

/-- The two-state boundary scenario: 0 to 1 labelled a non-accepting,
accepting self-loop b on 1. -/
def gTwo : TGraph := importTGraph 2 0 [(0, 1, "a", false), (1, 1, "b", true)]

/-- A graph whose vertex 1 carries two self-loops (accepting a first,
non-accepting b second), an in-edge 0 to 1 labelled c and an out-edge
1 to 2 labelled d. -/
def gRip : TGraph :=
  importTGraph 3 0 [(0, 1, "c", false), (1, 1, "a", true), (1, 1, "b", false), (1, 2, "d", false)]

/-- A hand-built graph whose final state 0 has only a non-accepting
self-loop, so that state 0 is recorded final yet not pseudo-accepting and
the unguarded non-accepting cycle query returns a value. -/
def gOnlyNon : TGraph where
  num_states := 1
  initial_state := 0
  final_states := [0]
  vertices := [(0, { out_edges := [⟨0, 0, Regex.Symbol "a", false⟩],
                     in_edges := [⟨0, 0, Regex.Symbol "a", false⟩] })]
  acc_trans := []
  nonacc_trans := [⟨0, 0, Regex.Symbol "a", false⟩]

/-- A one-state automaton with no accepting state. -/
def gNoAcc : TGraph := importTGraph 1 0 [(0, 0, "a", false)]

/-- A one-state automaton with one accepting state. -/
def gOneAcc : TGraph := importTGraph 1 0 [(0, 0, "a", true)]

theorem potStack_eq (sz : Bool) :
    ∀ (st : List Regex) (ret : List Tok),
      potStack sz st ret =
        if st.any Regex.hasEmpty then []
        else ((st.map (preTok sz)).flatten).reverse ++ ret := by
  intro st ret
  induction st, ret using potStack.induct sz with
  | case1 ret => simp [potStack]
  | case2 st ret => simp [Regex.hasEmpty, potStack]
  | case3 st ret ih =>
    rw [potStack, ih]
    by_cases h : st.any Regex.hasEmpty <;> simp [h, Regex.hasEmpty, preTok]
  | case4 s st ret ih =>
    rw [potStack, ih]
    by_cases h : st.any Regex.hasEmpty <;> simp [h, Regex.hasEmpty, preTok]
  | case5 l r st ret ih =>
    rw [potStack, ih]
    simp only [List.any_cons, Bool.or_eq_true, Regex.hasEmpty, preTok]
    split_ifs <;> first | tauto | simp [preTok]
  | case6 l r st ret ih =>
    rw [potStack, ih]
    simp only [List.any_cons, Bool.or_eq_true, Regex.hasEmpty, preTok]
    split_ifs <;> first | tauto | simp [preTok]
  | case7 r st ret ih =>
    rw [potStack]
    cases sz with
    | false =>
      simp only [Bool.false_eq_true, if_false]
      simp only [Bool.false_eq_true, dite_false] at ih
      rw [ih]
      simp only [List.any_cons, Bool.or_eq_true, Regex.hasEmpty, preTok]
      split_ifs <;> tauto
    | true =>
      simp only [if_true]
      simp only [dite_true] at ih
      rw [ih]
      simp only [List.any_cons, Bool.or_eq_true, Regex.hasEmpty, preTok]
      split_ifs <;> first | tauto | simp [preTok]

theorem postorderTraversal_eq (sz : Bool) (e : Regex) :
    postorderTraversal sz e =
      if e.hasEmpty then [] else (preTok sz e).reverse := by
  simp [postorderTraversal, potStack_eq]

/-- Value a token contributes to determine_size. -/
def tokVal : Tok → Nat
  | Tok.num n => n
  | _ => 1

theorem determineSize_eq (l : List Tok) : determineSize l = (l.map tokVal).sum := by
  suffices h : ∀ s, l.foldl (fun s t => match t with | Tok.num n => s + n | _ => s + 1) s
      = s + (l.map tokVal).sum by
    simpa [determineSize] using h 0
  induction l with
  | nil => simp
  | cons t ts ih => intro s; cases t <;> simp [ih, tokVal] <;> omega

theorem preTok_sum (e : Regex) : ((preTok true e).map tokVal).sum = e.opCount := by
  induction e <;> simp [preTok, Regex.opCount, tokVal, *] <;> omega

/-- The finite size metric computed by the code equals its recursive
characterization: 0 when the regex contains an Empty node, the count of
Symbol, Star, Concat and Union nodes otherwise. -/
theorem regexSize_eq (e : Regex) : regexSize e = sizeSpecR e := by
  by_cases h : e.hasEmpty <;>
    simp [regexSize, postorderTraversal_eq, sizeSpecR, h, determineSize_eq,
      List.map_reverse, List.sum_reverse, preTok_sum]

/-- Preorder emission sequence of the omega traversal for the size metric. -/
def preTokO : OmegaRegex → List Tok
  | .OmegaEmpty => []
  | .Repeat r => [Tok.num 1, Tok.num (regexSize r)]
  | .ConcatOmega l r => Tok.plus :: Tok.num (regexSize l) :: preTokO r
  | .UnionOmega a b => Tok.quest :: (preTokO a ++ preTokO b)

theorem potStackO_eq :
    ∀ (st : List OmegaRegex) (ret : List Tok),
      potStackO true st ret = some (((st.map preTokO).flatten).reverse ++ ret) := by
  intro st ret
  induction st, ret using potStackO.induct true with
  | case1 ret => simp [potStackO]
  | case2 st ret ih => rw [potStackO]; simp [preTokO, ih]
  | case3 r st ret hn => simp at hn
  | case4 r st ret x hx ih =>
    simp only [dite_true, Option.some.injEq] at hx
    subst hx
    simp only [dite_true] at ih
    rw [potStackO]
    simp only [if_true]
    rw [ih]
    simp [preTokO]
  | case5 l r st ret hn => simp at hn
  | case6 l r st ret x hx ih =>
    simp only [dite_true, Option.some.injEq] at hx
    subst hx
    rw [potStackO]
    simp only [if_true]
    rw [ih]
    simp [preTokO]
  | case7 l r st ret ih =>
    rw [potStackO]
    rw [ih]
    simp [preTokO]

theorem preTokO_sum (e : OmegaRegex) : ((preTokO e).map tokVal).sum = sizeSpecO e := by
  induction e <;>
    simp [preTokO, sizeSpecO, tokVal, regexSize_eq, *] <;> omega

/-- The omega size metric computed by the code equals its recursive
characterization sizeSpecO (in particular it never raises). -/
theorem omegaSize_eq (e : OmegaRegex) : omegaSize e = some (sizeSpecO e) := by
  simp [omegaSize, potStackO_eq, determineSize_eq, List.map_reverse,
    List.sum_reverse, preTokO_sum]

/-! ## Claim C1: union nesting direction -/

theorem foldl_unionOmega (c : OmegaRegex) (cs : List OmegaRegex) :
    cs.foldl OmegaRegex.UnionOmega c = leftNestedO c cs := by
  induction cs generalizing c with
  | nil => rfl
  | cons d ds ih => simp [leftNestedO, List.foldl_cons, ih]

theorem foldl_unionLabel (c : Regex) (rest : List Edge) :
    rest.foldl (fun acc f => Regex.Union acc f.label) c
      = leftNestedR c (rest.map (fun f => f.label)) := by
  induction rest generalizing c with
  | nil => rfl
  | cons d ds ih => simp [leftNestedR, List.foldl_cons, ih]

theorem unionFoldLabels_some (c : Regex) (es : List Edge) :
    es.foldl (fun acc e =>
        match acc with
        | none => some e.label
        | some r => some (Regex.Union r e.label)) (some c)
      = some (leftNestedR c (es.map (fun f => f.label))) := by
  induction es generalizing c with
  | nil => rfl
  | cons d ds ih => simp [leftNestedR, List.foldl_cons, ih]

/-- C1 counterexample: on three parallel edges the McNaughton-Yamada base
case builds the left-nested Union((a|b)|c), not the right-nested
Union(a|(b|c)) the claim asserts. -/
theorem C1_counterexample :
    gPar.mcny 0 1 none =
      some (Regex.Union (Regex.Union (Regex.Symbol "a") (Regex.Symbol "b")) (Regex.Symbol "c")) ∧
    gPar.mcny 0 1 none ≠
      some (Regex.Union (Regex.Symbol "a") (Regex.Union (Regex.Symbol "b") (Regex.Symbol "c"))) := by
  constructor <;> decide

/-- C1 amended: every union the synthesis core builds by folding is
LEFT-leaning: the driver-level UnionOmega fold over the final-state
contributions, the Union fold over edge labels shared by the
McNaughton-Yamada base case and the r1/r2 accumulators of the path queries,
and the label fold of combine_duplicate_edge all produce the explicit
left-nested shape. -/
theorem C1_amended_left_leaning :
    (∀ (c : OmegaRegex) (cs : List OmegaRegex), unionOFold (c :: cs) = leftNestedO c cs) ∧
    (∀ (e : Edge) (rest : List Edge),
      unionFoldLabels (e :: rest) = some (leftNestedR e.label (rest.map (fun f => f.label)))) ∧
    (∀ (e0 : Edge) (rest : List Edge),
      rest.foldl (fun acc f => Regex.Union acc f.label) e0.label
        = leftNestedR e0.label (rest.map (fun f => f.label))) := by
  refine ⟨fun c cs => foldl_unionOmega c cs, fun e rest => ?_, fun e0 rest => foldl_unionLabel _ _⟩
  simp [unionFoldLabels, List.foldl_cons, unionFoldLabels_some]

/-! ## Claim C2: the size measure -/

/-- C2 counterexample: the code computes size 4 for the two-state scenario
expression, not the 3 required by the claim (the Concat marker itself is
counted and Union markers are summed, not maxed). -/
theorem C2_counterexample :
    omegaSize (OmegaRegex.ConcatOmega (Regex.Symbol "a")
        (OmegaRegex.Repeat (Regex.Symbol "b"))) = some 4 ∧
    sizeSpecClaimO (OmegaRegex.ConcatOmega (Regex.Symbol "a")
        (OmegaRegex.Repeat (Regex.Symbol "b"))) = 3 := by
  rw [omegaSize_eq]
  constructor <;> decide

/-- C2 amended: the size measure counts 1 for every Sym, Star, Repeat AND
for every Concat, Union, ConcatOmega, UnionOmega node, summing over all of
them (never taking a maximum); a finite component containing an Empty node
contributes 0 as the finite traversal aborts. -/
theorem C2_amended_size :
    (∀ e : Regex, regexSize e = sizeSpecR e) ∧
    (∀ e : OmegaRegex, omegaSize e = some (sizeSpecO e)) :=
  ⟨regexSize_eq, omegaSize_eq⟩

/-! ## Claim C3: the length measure -/

/-- C3: the code contradicts the specified recursion.  An Empty leaf aborts
the whole traversal, so Concat(Sym a, Empty) gets length 0 where the
recursion gives 1; and even on Empty-free input the deque evaluator mispairs
operands: Union(Concat(a, Concat(b, c)), Star d) gets 2 instead of
max(3, 1) = 3. -/
theorem C3_code_bug_length :
    regexTllen (Regex.Concat (Regex.Symbol "a") Regex.Empty) = some 0 ∧
    lengthSpec (Regex.Concat (Regex.Symbol "a") Regex.Empty) = 1 ∧
    regexTllen (Regex.Union (Regex.Concat (Regex.Symbol "a")
        (Regex.Concat (Regex.Symbol "b") (Regex.Symbol "c")))
      (Regex.Star (Regex.Symbol "d"))) = some 2 ∧
    lengthSpec (Regex.Union (Regex.Concat (Regex.Symbol "a")
        (Regex.Concat (Regex.Symbol "b") (Regex.Symbol "c")))
      (Regex.Star (Regex.Symbol "d"))) = 3 := by
  refine ⟨?_, by decide, ?_, by decide⟩ <;>
    · show solvePost (postorderTraversal false _) [] = _
      rw [postorderTraversal_eq]
      decide

/-! ## Claim C4: drivers and mutation of the input graph -/

/-- C4 counterexample: on a graph with duplicate edges every driver leaves
the argument graph coalesced, not unchanged: after taut_to_regex_bmc the
input graph has one out-edge at state 0 where it had two. -/
theorem C4_counterexample :
    (tautToRegexBmc gDup).2 ≠ gDup ∧
    ((tautToRegexBmc gDup).2.vtx 0).out_edges.length = 1 ∧
    (gDup.vtx 0).out_edges.length = 2 := by
  refine ⟨?_, by decide, by decide⟩
  decide

theorem combineGroup_short (g : TGraph) (es : List Edge) (h : es.length ≤ 1) :
    combineGroup g es = g := by
  match es with
  | [] => rfl
  | [_] => rfl
  | _ :: _ :: _ => simp at h

theorem groupsAux_len (l : List Edge) :
    ∀ gs, l.Pairwise (fun a b => edgeKey a ≠ edgeKey b) →
      (∀ kp ∈ gs, kp.2.length ≤ 1) →
      (∀ kp ∈ gs, kp.2 ≠ []) →
      (∀ kp ∈ gs, ∀ e ∈ kp.2, edgeKey e = kp.1) →
      (∀ kp ∈ gs, ∀ e ∈ kp.2, ∀ f ∈ l, edgeKey e ≠ edgeKey f) →
      ∀ kp ∈ l.foldl addToGroups gs, kp.2.length ≤ 1 := by
  induction l with
  | nil => intro gs _ h1 _ _ _; simpa using h1
  | cons e l ih =>
    intro gs hp h1 h2 h3 h4
    rw [List.foldl_cons]
    have hpw := List.pairwise_cons.mp hp
    have hnot : gs.any (fun p => p.1 = edgeKey e) = false := by
      rw [List.any_eq_false]
      rintro kp hkp
      simp only [decide_eq_true_eq]
      intro hk
      rcases kp with ⟨k, es0⟩
      rcases es0 with _ | ⟨e0, es1⟩
      · exact h2 _ hkp rfl
      · exact h4 _ hkp e0 (by simp) e (by simp) ((h3 _ hkp e0 (by simp)).trans hk)
    have hadd : addToGroups gs e = gs ++ [(edgeKey e, [e])] := by
      simp [addToGroups, hnot]
    rw [hadd]
    refine ih (gs ++ [(edgeKey e, [e])]) hpw.2 ?_ ?_ ?_ ?_
    · intro kp hkp
      rcases List.mem_append.mp hkp with h | h
      · exact h1 _ h
      · simp at h; subst h; simp
    · intro kp hkp
      rcases List.mem_append.mp hkp with h | h
      · exact h2 _ h
      · simp at h; subst h; simp
    · intro kp hkp e0 he0
      rcases List.mem_append.mp hkp with h | h
      · exact h3 _ h e0 he0
      · simp at h; subst h; simp at he0; subst he0; rfl
    · intro kp hkp e0 he0 f hf
      rcases List.mem_append.mp hkp with h | h
      · exact h4 _ h e0 he0 f (by simp [hf])
      · simp at h; subst h; simp at he0; subst he0
        exact hpw.1 f hf

theorem edgeGroups_short (g : TGraph)
    (h : g.allOut.Pairwise (fun a b => edgeKey a ≠ edgeKey b)) :
    ∀ kp ∈ g.edgeGroups, kp.2.length ≤ 1 := by
  have := groupsAux_len g.allOut [] h (by simp) (by simp) (by simp) (by simp)
  simpa [TGraph.edgeGroups] using this

theorem combineFold_id (L : List ((Nat × Nat × Bool) × List Edge)) (g : TGraph)
    (h : ∀ kp ∈ L, kp.2.length ≤ 1) :
    L.foldl (fun h kp => combineGroup h kp.2) g = g := by
  induction L generalizing g with
  | nil => rfl
  | cons kp L ihl =>
    rw [List.foldl_cons, combineGroup_short g kp.2 (h kp (by simp))]
    exact ihl g (fun q hq => h q (by simp [hq]))

theorem combineDuplicateEdge_id (g : TGraph)
    (h : g.allOut.Pairwise (fun a b => edgeKey a ≠ edgeKey b)) :
    g.combineDuplicateEdge = g :=
  combineFold_id g.edgeGroups g (edgeGroups_short g h)

/-- C4 amended: each driver mutates its argument graph exactly by the
in-place duplicate-edge coalescing of combine_duplicate_edge; when no two
adjacency edges of g share (src, dst, accepting), every driver leaves g
unchanged (the destructive state elimination always runs on deep copies). -/
theorem C4_amended_frame (g : TGraph)
    (h : g.allOut.Pairwise (fun a b => edgeKey a ≠ edgeKey b)) :
    (tautToRegexBmc g).2 = g ∧ (tautToRegexMny g).2 = g ∧
    (simpTautToRegexBmcCore g).2 = g ∧ (simpTautToRegexMnyCore g).2 = g := by
  have hg := combineDuplicateEdge_id g h
  exact ⟨hg, hg, hg, hg⟩

/-- Witness for C4 amended at the duplicate-free two-state scenario graph. -/
theorem C4_amended_frame_witness :
    (tautToRegexBmc gTwo).2 = gTwo ∧ (tautToRegexMny gTwo).2 = gTwo ∧
    (simpTautToRegexBmcCore gTwo).2 = gTwo ∧ (simpTautToRegexMnyCore gTwo).2 = gTwo :=
  C4_amended_frame gTwo (by decide)

/-! ## Claim C7: the pseudo-accepting guard on the non-accepting query -/

/-- C7 counterexample: simp_taut_to_regex_bmc computes path3 with an
unguarded find_nonaccpath call; on a graph whose final state 0 is not
pseudo-accepting the query is issued and returns a value, contradicting
the claim that every lasso driver issues N only under the guard. -/
theorem C7_counterexample :
    gOnlyNon.pseudoAccepting 0 = false ∧
    0 ∈ gOnlyNon.final_states ∧
    simpBmcPath3 gOnlyNon 0 = some (Regex.Symbol "a") ∧
    bmcPath3 gOnlyNon 0 = none := by
  refine ⟨by decide, by decide, ?_, by decide⟩
  decide

/-- C7 amended: in taut_to_regex_bmc, taut_to_regex_mny and
simp_taut_to_regex_mny the non-accepting cycle query is guarded: for a
final state that is not pseudo-accepting path3 is None and the contribution
is Repeat(A), or ConcatOmega(P, Repeat(A)) when a path component exists,
with no Star(N) factor.  (simp_taut_to_regex_bmc issues the query
unconditionally, see the counterexample.) -/
theorem C7_amended_guard (g : TGraph) (f : Nat)
    (h : g.pseudoAccepting f = false) :
    bmcPath3 g f = none ∧ mnyPath3 g f = none ∧
    (∀ (p1 : Option Regex) (A : Regex),
      lassoContribution p1 (some A) (bmcPath3 g f) =
        some (match p1 with
          | none => OmegaRegex.Repeat A
          | some p => OmegaRegex.ConcatOmega p (OmegaRegex.Repeat A))) ∧
    (∀ (p1 : Option Regex) (A : Regex),
      lassoContribution p1 (some A) (mnyPath3 g f) =
        some (match p1 with
          | none => OmegaRegex.Repeat A
          | some p => OmegaRegex.ConcatOmega p (OmegaRegex.Repeat A))) := by
  have hb : bmcPath3 g f = none := by simp [bmcPath3, h]
  have hm : mnyPath3 g f = none := by simp [mnyPath3, h]
  refine ⟨hb, hm, ?_, ?_⟩ <;>
    · intro p1 A
      simp only [hb, hm, lassoContribution]
      cases p1 <;> rfl

/-- Witness for C7 amended: state 1 of the two-state scenario graph has
only an accepting out-edge, hence is not pseudo-accepting. -/
theorem C7_amended_guard_witness :
    gTwo.pseudoAccepting 1 = false ∧
    (bmcPath3 gTwo 1 = none ∧ mnyPath3 gTwo 1 = none ∧
    (∀ (p1 : Option Regex) (A : Regex),
      lassoContribution p1 (some A) (bmcPath3 gTwo 1) =
        some (match p1 with
          | none => OmegaRegex.Repeat A
          | some p => OmegaRegex.ConcatOmega p (OmegaRegex.Repeat A))) ∧
    (∀ (p1 : Option Regex) (A : Regex),
      lassoContribution p1 (some A) (mnyPath3 gTwo 1) =
        some (match p1 with
          | none => OmegaRegex.Repeat A
          | some p => OmegaRegex.ConcatOmega p (OmegaRegex.Repeat A)))) :=
  ⟨by decide, C7_amended_guard gTwo 1 (by decide)⟩

/-! ## Claim C9: the auto shape selection -/

/-- C9 counterexample: when the state-shape automaton has strictly more
accepting states (1 against 0) the code returns the transition-shape
automaton, not the state-shape one the claim promises. -/
theorem C9_counterexample :
    transitionOrStateAut (some gNoAcc) (some gOneAcc) = some gNoAcc ∧
    gOneAcc.nAcc = 1 ∧ gNoAcc.nAcc = 0 ∧ gNoAcc ≠ gOneAcc := by
  refine ⟨?_, by decide, by decide, by decide⟩
  decide

/-- C9 amended: when both constructions succeed the one with strictly FEWER
accepting states is returned; on a tie the transition shape is returned only
when it has strictly fewer total states, the state shape otherwise; if
exactly one construction fails the other is returned. -/
theorem C9_amended_selection :
    (∀ a : TGraph, transitionOrStateAut none (some a) = some a) ∧
    (∀ a : TGraph, transitionOrStateAut (some a) none = some a) ∧
    transitionOrStateAut none none = none ∧
    (∀ at_ as_ : TGraph, at_.nAcc < as_.nAcc →
      transitionOrStateAut (some at_) (some as_) = some at_) ∧
    (∀ at_ as_ : TGraph, as_.nAcc < at_.nAcc →
      transitionOrStateAut (some at_) (some as_) = some as_) ∧
    (∀ at_ as_ : TGraph, as_.nAcc = at_.nAcc → at_.nStates < as_.nStates →
      transitionOrStateAut (some at_) (some as_) = some at_) ∧
    (∀ at_ as_ : TGraph, as_.nAcc = at_.nAcc → as_.nStates ≤ at_.nStates →
      transitionOrStateAut (some at_) (some as_) = some as_) := by
  refine ⟨fun a => rfl, fun a => rfl, rfl, ?_, ?_, ?_, ?_⟩
  · intro at_ as_ h1
    simp only [transitionOrStateAut]
    rw [if_pos (Or.inl h1)]
  · intro at_ as_ h1
    simp only [transitionOrStateAut]
    rw [if_neg]
    rintro (h | ⟨h, _⟩) <;> omega
  · intro at_ as_ h1 h2
    simp only [transitionOrStateAut]
    rw [if_pos (Or.inr ⟨h1, h2⟩)]
  · intro at_ as_ h1 h2
    simp only [transitionOrStateAut]
    rw [if_neg]
    rintro (h | ⟨h, hs⟩) <;> omega

/-- Witness for C9 amended, applying the strictly-fewer branch and the
double-tie branch at concrete automata. -/
theorem C9_amended_selection_witness :
    (gNoAcc.nAcc < gOneAcc.nAcc →
      transitionOrStateAut (some gNoAcc) (some gOneAcc) = some gNoAcc) ∧
    (gTwo.nAcc = gTwo.nAcc → gTwo.nStates ≤ gTwo.nStates →
      transitionOrStateAut (some gTwo) (some gTwo) = some gTwo) :=
  ⟨C9_amended_selection.2.2.2.1 gNoAcc gOneAcc,
   C9_amended_selection.2.2.2.2.2.2 gTwo gTwo⟩

/-! ## Claim C5: the trans-list invariant, counterexample part -/

/-- C5 counterexample: combine_duplicate_edge relabels the surviving edge
only in the adjacency lists, so after coalescing gDup the out-edge of state
0 carries Union(a, b) while both trans lists still hold only the stale
original labels: no structurally equal edge exists in either trans list. -/
theorem C5_counterexample :
    (⟨0, 1, Regex.Union (Regex.Symbol "a") (Regex.Symbol "b"), false⟩ : Edge) ∈
      (gDup.combineDuplicateEdge.vtx 0).out_edges ∧
    ¬ structIn ⟨0, 1, Regex.Union (Regex.Symbol "a") (Regex.Symbol "b"), false⟩
        gDup.combineDuplicateEdge.acc_trans ∧
    ¬ structIn ⟨0, 1, Regex.Union (Regex.Symbol "a") (Regex.Symbol "b"), false⟩
        gDup.combineDuplicateEdge.nonacc_trans := by
  refine ⟨by decide, by decide, by decide⟩

/-! ## Lookup and update lemmas for the vertex association list -/

theorem lookup_map_keep {l : List (Nat × Vtx)} {v w : Nat} {f : Vtx → Vtx} (h : w ≠ v) :
    (l.map (fun p => if p.1 = v then (p.1, f p.2) else p)).lookup w = l.lookup w := by
  induction l with
  | nil => rfl
  | cons p l ih =>
    simp only [List.map_cons]
    by_cases hp : p.1 = v
    · rw [if_pos hp]
      have hb : (w == p.1) = false := by simp [hp, h]
      simp only [List.lookup, hb, ih]
    · rw [if_neg hp]
      simp only [List.lookup, ih]

theorem lookup_map_hit {l : List (Nat × Vtx)} {v : Nat} {f : Vtx → Vtx} :
    (l.map (fun p => if p.1 = v then (p.1, f p.2) else p)).lookup v =
      (l.lookup v).map f := by
  induction l with
  | nil => rfl
  | cons p l ih =>
    simp only [List.map_cons]
    by_cases hp : p.1 = v
    · rw [if_pos hp]
      have hb : (v == p.1) = true := by simp [hp]
      simp [List.lookup, hb]
    · rw [if_neg hp]
      have hb : (v == p.1) = false := by
        rw [beq_eq_false_iff_ne]
        exact Ne.symm hp
      simp only [List.lookup, hb, ih]

theorem vtx_updVtx_other {g : TGraph} {v w : Nat} {f : Vtx → Vtx} (h : w ≠ v) :
    (g.updVtx v f).vtx w = g.vtx w := by
  simp [TGraph.vtx, TGraph.updVtx, lookup_map_keep h]

theorem vtx_updVtx_same {g : TGraph} {v : Nat} {f : Vtx → Vtx}
    (h : (g.vertices.lookup v).isSome) :
    (g.updVtx v f).vtx v = f (g.vtx v) := by
  rcases ho : g.vertices.lookup v with _ | w
  · rw [ho] at h; simp at h
  · simp [TGraph.vtx, TGraph.updVtx, lookup_map_hit, ho]

theorem updVtx_keys (g : TGraph) (v : Nat) (f : Vtx → Vtx) :
    (g.updVtx v f).vertices.map Prod.fst = g.vertices.map Prod.fst := by
  simp only [TGraph.updVtx, List.map_map]
  refine List.map_congr_left (fun p _ => ?_)
  by_cases hp : p.1 = v <;> simp [hp]

theorem lookup_isSome_iff {l : List (Nat × Vtx)} {v : Nat} :
    (l.lookup v).isSome ↔ v ∈ l.map Prod.fst := by
  induction l with
  | nil => simp [List.lookup]
  | cons p l ih =>
    by_cases hv : v = p.1
    · have hb : (v == p.1) = true := by simp [hv]
      simp [List.lookup, hb, hv]
    · have hb : (v == p.1) = false := by
        rw [beq_eq_false_iff_ne]
        exact hv
      simp [List.lookup, hb, ih, hv]

theorem lookup_isSome_of_mem_keys {l : List (Nat × Vtx)} {v : Nat}
    (h : v ∈ l.map Prod.fst) : (l.lookup v).isSome :=
  lookup_isSome_iff.mpr h

theorem lookup_eq_of_mem {l : List (Nat × Vtx)} {p : Nat × Vtx}
    (hnd : (l.map Prod.fst).Nodup) (hp : p ∈ l) : l.lookup p.1 = some p.2 := by
  induction l with
  | nil => simp at hp
  | cons q l ih =>
    rcases List.mem_cons.mp hp with h1 | h1
    · subst h1; simp [List.lookup]
    · have hq : p.1 ≠ q.1 := by
        intro he
        have : q.1 ∈ l.map Prod.fst := he ▸ List.mem_map_of_mem Prod.fst h1
        exact (List.nodup_cons.mp (by simpa using hnd)).1 this
      have : (p.1 == q.1) = false := by simp [hq]
      simp [List.lookup, this, ih (List.nodup_cons.mp (by simpa using hnd)).2 h1]

theorem vtx_mem_eq {g : TGraph} {p : Nat × Vtx}
    (hnd : (g.vertices.map Prod.fst).Nodup) (hp : p ∈ g.vertices) :
    g.vtx p.1 = p.2 := by
  simp [TGraph.vtx, lookup_eq_of_mem hnd hp]

/-! ## The effect of add_edge on vertex lookup -/

theorem vtx_congr {g h : TGraph} (he : g.vertices = h.vertices) (v : Nat) :
    g.vtx v = h.vtx v := by
  simp [TGraph.vtx, he]

theorem addEdge_vtx (g : TGraph) (src dst : Nat) (lbl : Regex) (acc : Bool) (v : Nat) :
    (g.addEdge src dst lbl acc).vtx v =
      ((g.updVtx src (fun w => { w with out_edges := w.out_edges ++ [⟨src, dst, lbl, acc⟩] })).updVtx
        dst (fun w => { w with in_edges := w.in_edges ++ [⟨src, dst, lbl, acc⟩] })).vtx v := by
  refine vtx_congr ?_ v
  simp only [TGraph.addEdge]
  by_cases hacc : acc <;> simp [hacc]

theorem vtx_out_updIn (h : TGraph) (dst : Nat) (e : Edge) (w : Nat) :
    ((h.updVtx dst (fun u => { u with in_edges := u.in_edges ++ [e] })).vtx w).out_edges =
      (h.vtx w).out_edges := by
  by_cases hw : w = dst
  · subst hw
    simp only [TGraph.vtx, TGraph.updVtx]
    rw [@lookup_map_hit h.vertices w (fun u => { u with in_edges := u.in_edges ++ [e] })]
    rcases ho : h.vertices.lookup w with _ | u <;> simp
  · rw [vtx_updVtx_other hw]

theorem vtx_in_updOut (h : TGraph) (src : Nat) (e : Edge) (w : Nat) :
    ((h.updVtx src (fun u => { u with out_edges := u.out_edges ++ [e] })).vtx w).in_edges =
      (h.vtx w).in_edges := by
  by_cases hw : w = src
  · subst hw
    simp only [TGraph.vtx, TGraph.updVtx]
    rw [@lookup_map_hit h.vertices w (fun u => { u with out_edges := u.out_edges ++ [e] })]
    rcases ho : h.vertices.lookup w with _ | u <;> simp
  · rw [vtx_updVtx_other hw]

theorem addEdge_vtx_out {g : TGraph} {src dst : Nat} {lbl : Regex} {acc : Bool}
    (hsrc : (g.vertices.lookup src).isSome) (v : Nat) :
    ((g.addEdge src dst lbl acc).vtx v).out_edges =
      if v = src then (g.vtx v).out_edges ++ [⟨src, dst, lbl, acc⟩]
      else (g.vtx v).out_edges := by
  rw [addEdge_vtx, vtx_out_updIn]
  by_cases hv : v = src
  · subst hv; rw [vtx_updVtx_same hsrc]; simp
  · rw [vtx_updVtx_other hv]; simp [hv]

theorem addEdge_vtx_in {g : TGraph} {src dst : Nat} {lbl : Regex} {acc : Bool}
    (hdst : (g.vertices.lookup dst).isSome) (v : Nat) :
    ((g.addEdge src dst lbl acc).vtx v).in_edges =
      if v = dst then (g.vtx v).in_edges ++ [⟨src, dst, lbl, acc⟩]
      else (g.vtx v).in_edges := by
  rw [addEdge_vtx]
  have hdst1 : (((g.updVtx src (fun w => { w with out_edges := w.out_edges ++ [⟨src, dst, lbl, acc⟩] }))).vertices.lookup dst).isSome := by
    rw [lookup_isSome_iff, updVtx_keys, ← lookup_isSome_iff]
    exact hdst
  by_cases hv : v = dst
  · subst hv
    rw [vtx_updVtx_same hdst1]
    simp [vtx_in_updOut]
  · rw [vtx_updVtx_other hv, vtx_in_updOut]
    simp [hv]

theorem addEdge_acc_trans (g : TGraph) (src dst : Nat) (lbl : Regex) :
    ∀ acc, (g.addEdge src dst lbl acc).acc_trans =
      if acc then g.acc_trans ++ [⟨src, dst, lbl, acc⟩] else g.acc_trans := by
  intro acc
  by_cases hacc : acc <;> simp [TGraph.addEdge, TGraph.updVtx, hacc]

theorem addEdge_nonacc_trans (g : TGraph) (src dst : Nat) (lbl : Regex) :
    ∀ acc, (g.addEdge src dst lbl acc).nonacc_trans =
      if acc then g.nonacc_trans else g.nonacc_trans ++ [⟨src, dst, lbl, false⟩] := by
  intro acc
  by_cases hacc : acc <;> simp [TGraph.addEdge, TGraph.updVtx, hacc]

theorem addEdge_finals (g : TGraph) (src dst : Nat) (lbl : Regex) :
    ∀ acc, (g.addEdge src dst lbl acc).final_states =
      if acc then sinsert src g.final_states else g.final_states := by
  intro acc
  by_cases hacc : acc <;> simp [TGraph.addEdge, TGraph.updVtx, hacc]

theorem addEdge_keys (g : TGraph) (src dst : Nat) (lbl : Regex) (acc : Bool) :
    (g.addEdge src dst lbl acc).vertices.map Prod.fst = g.vertices.map Prod.fst := by
  have h1 : (g.addEdge src dst lbl acc).vertices =
      ((g.updVtx src (fun w => { w with out_edges := w.out_edges ++ [⟨src, dst, lbl, acc⟩] })).updVtx
        dst (fun w => { w with in_edges := w.in_edges ++ [⟨src, dst, lbl, acc⟩] })).vertices := by
    simp only [TGraph.addEdge]
    by_cases hacc : acc <;> simp [hacc]
  rw [h1, updVtx_keys, updVtx_keys]

theorem mem_sinsert {s v : Nat} : ∀ {l : List Nat}, s ∈ sinsert v l ↔ s = v ∨ s ∈ l := by
  intro l
  induction l with
  | nil => simp [sinsert]
  | cons x xs ih =>
    simp only [sinsert]
    split_ifs with h1 h2 <;> subst_eqs <;> simp only [List.mem_cons, ih] <;> tauto

/-! ## Claim C5: invariant of imported graphs -/

theorem lookup_some_mem {l : List (Nat × Vtx)} {v : Nat} {w : Vtx}
    (h : l.lookup v = some w) : (v, w) ∈ l := by
  induction l with
  | nil => simp [List.lookup] at h
  | cons p l ih =>
    rcases hb : (v == p.1) with _ | _
    · simp only [List.lookup, hb] at h
      exact List.mem_cons_of_mem _ (ih h)
    · simp only [List.lookup, hb] at h
      have hv : v = p.1 := by simpa using hb
      have hw : p.2 = w := Option.some.inj h
      refine List.mem_cons.mpr (Or.inl ?_)
      rw [hv, ← hw]

theorem emptyTGraph_vtx (n init v : Nat) :
    (emptyTGraph n init).vtx v = ⟨[], []⟩ := by
  simp only [TGraph.vtx, emptyTGraph]
  rcases ho : List.lookup v ((List.range n).map (fun i => (i, (⟨[], []⟩ : Vtx)))) with _ | w
  · rfl
  · rcases List.mem_map.mp (lookup_some_mem ho) with ⟨i, _, hi⟩
    exact (Prod.mk.injEq _ _ _ _ ▸ hi).2.symm ▸ rfl

theorem impInv_empty (n init : Nat) (es : List (Nat × Nat × String × Bool)) :
    ImpInv n es (emptyTGraph n init) := by
  refine ⟨?_, ?_, ?_, ?_, ?_, ?_, ?_, ?_⟩
  · show ((List.range n).map (fun i => (i, (⟨[], []⟩ : Vtx)))).map Prod.fst = List.range n
    rw [List.map_map]
    exact List.map_id _
  · intro v e he
    rw [emptyTGraph_vtx] at he
    simp at he
  · intro v e he
    rw [emptyTGraph_vtx] at he
    simp at he
  · intro v e he
    rw [emptyTGraph_vtx] at he
    simp at he
  · intro e he
    simp [emptyTGraph] at he
  · intro e he
    simp [emptyTGraph] at he
  · intro t
    rw [emptyTGraph_vtx]
    simp [emptyTGraph]
  · intro v e he
    rw [emptyTGraph_vtx] at he
    simp at he

theorem impInv_addEdge {n : Nat} {es : List (Nat × Nat × String × Bool)} {g : TGraph}
    {src dst : Nat} {str : String} {acc : Bool}
    (hI : ImpInv n es g) (ht : (src, dst, str, acc) ∈ es) (hs : src < n) (hd : dst < n) :
    ImpInv n es (g.addEdge src dst (Regex.Symbol str) acc) := by
  obtain ⟨hkeys, hwo, hwi, hmain, hacc, hnon, hfin, hsup⟩ := hI
  have hsrcS : (g.vertices.lookup src).isSome := by
    rw [lookup_isSome_iff, hkeys]
    simpa using hs
  have hdstS : (g.vertices.lookup dst).isSome := by
    rw [lookup_isSome_iff, hkeys]
    simpa using hd
  have hout := @addEdge_vtx_out g src dst (Regex.Symbol str) acc hsrcS
  have hin := @addEdge_vtx_in g src dst (Regex.Symbol str) acc hdstS
  refine ⟨by rw [addEdge_keys, hkeys], ?_, ?_, ?_, ?_, ?_, ?_, ?_⟩
  · intro v e he
    rw [hout v] at he
    by_cases hv : v = src
    · rw [if_pos hv] at he
      rcases List.mem_append.mp he with h | h
      · exact hwo v e h
      · simp at h
        subst h
        exact hv.symm
    · rw [if_neg hv] at he
      exact hwo v e he
  · intro v e he
    rw [hin v] at he
    by_cases hv : v = dst
    · rw [if_pos hv] at he
      rcases List.mem_append.mp he with h | h
      · exact hwi v e h
      · simp at h
        subst h
        exact hv.symm
    · rw [if_neg hv] at he
      exact hwi v e he
  · intro v e he
    rw [hout v] at he
    have hsplit : e ∈ (g.vtx v).out_edges ∨ e = (⟨src, dst, Regex.Symbol str, acc⟩ : Edge) := by
      by_cases hv : v = src
      · rw [if_pos hv] at he
        rcases List.mem_append.mp he with h | h
        · exact Or.inl h
        · simp at h
          exact Or.inr h
      · rw [if_neg hv] at he
        exact Or.inl he
    rw [addEdge_acc_trans, addEdge_nonacc_trans]
    rcases hsplit with h | h
    · obtain ⟨h1, h2, h3⟩ := hmain v e h
      refine ⟨?_, ?_, ?_⟩
      · rw [hin e.dst]
        by_cases hv2 : e.dst = dst
        · rw [if_pos hv2]
          exact List.mem_append_left _ h1
        · rw [if_neg hv2]
          exact h1
      · intro hae
        cases acc
        · simpa using h2 hae
        · simp only [if_true]
          exact List.mem_append_left _ (h2 hae)
      · intro hae
        cases acc
        · simp only [Bool.false_eq_true, if_false]
          exact List.mem_append_left _ (h3 hae)
        · simpa using h3 hae
    · subst h
      refine ⟨?_, ?_, ?_⟩
      · rw [hin dst, if_pos rfl]
        exact List.mem_append_right _ (by simp)
      · intro hae
        have ha : acc = true := hae
        subst ha
        simp only [if_true]
        exact List.mem_append_right _ (by simp)
      · intro hae
        have ha : acc = false := hae
        subst ha
        simp only [Bool.false_eq_true, if_false]
        exact List.mem_append_right _ (by simp)
  · intro e he
    rw [addEdge_acc_trans] at he
    have hsplit : e ∈ g.acc_trans ∨ (acc = true ∧ e = ⟨src, dst, Regex.Symbol str, acc⟩) := by
      cases acc
      · simp only [Bool.false_eq_true, if_false] at he
        exact Or.inl he
      · simp only [if_true] at he
        rcases List.mem_append.mp he with h | h
        · exact Or.inl h
        · simp at h
          exact Or.inr ⟨rfl, h⟩
    rcases hsplit with h | ⟨ha, h⟩
    · obtain ⟨h1, h2⟩ := hacc e h
      refine ⟨h1, ?_⟩
      rw [hout e.src]
      by_cases hv : e.src = src
      · rw [if_pos hv]
        exact List.mem_append_left _ h2
      · rw [if_neg hv]
        exact h2
    · subst h
      subst ha
      refine ⟨rfl, ?_⟩
      rw [hout src, if_pos rfl]
      exact List.mem_append_right _ (by simp)
  · intro e he
    rw [addEdge_nonacc_trans] at he
    have hsplit : e ∈ g.nonacc_trans ∨ (acc = false ∧ e = ⟨src, dst, Regex.Symbol str, false⟩) := by
      cases acc
      · simp only [Bool.false_eq_true, if_false] at he
        rcases List.mem_append.mp he with h | h
        · exact Or.inl h
        · simp at h
          exact Or.inr ⟨rfl, h⟩
      · simp only [if_true] at he
        exact Or.inl he
    rcases hsplit with h | ⟨ha, h⟩
    · obtain ⟨h1, h2⟩ := hnon e h
      refine ⟨h1, ?_⟩
      rw [hout e.src]
      by_cases hv : e.src = src
      · rw [if_pos hv]
        exact List.mem_append_left _ h2
      · rw [if_neg hv]
        exact h2
    · subst h
      subst ha
      refine ⟨rfl, ?_⟩
      rw [hout src, if_pos rfl]
      exact List.mem_append_right _ (by simp)
  · intro t
    rw [addEdge_finals]
    cases acc
    · simp only [Bool.false_eq_true, if_false]
      rw [hfin t, hout t]
      by_cases hv : t = src
      · rw [if_pos hv]
        constructor
        · rintro ⟨e, he, hea⟩
          exact ⟨e, List.mem_append_left _ he, hea⟩
        · rintro ⟨e, he, hea⟩
          rcases List.mem_append.mp he with h | h
          · exact ⟨e, h, hea⟩
          · simp at h
            subst h
            simp at hea
      · rw [if_neg hv]
    · simp only [if_true]
      rw [mem_sinsert, hfin t, hout t]
      by_cases hv : t = src
      · rw [if_pos hv]
        constructor
        · intro _
          exact ⟨⟨src, dst, Regex.Symbol str, true⟩, List.mem_append_right _ (by simp), rfl⟩
        · intro _
          exact Or.inl hv
      · rw [if_neg hv]
        constructor
        · rintro (h | h)
          · exact absurd h hv
          · exact h
        · exact Or.inr
  · intro v e he
    rw [hout v] at he
    by_cases hv : v = src
    · rw [if_pos hv] at he
      rcases List.mem_append.mp he with h | h
      · exact hsup v e h
      · simp at h
        subst h
        exact ⟨str, rfl, ht⟩
    · rw [if_neg hv] at he
      exact hsup v e he

theorem impInv_fold {n : Nat} {es : List (Nat × Nat × String × Bool)} :
    ∀ (l : List (Nat × Nat × String × Bool)) (g : TGraph),
      ImpInv n es g → (∀ t ∈ l, t ∈ es) → (∀ t ∈ l, t.1 < n ∧ t.2.1 < n) →
      ImpInv n es
        (l.foldl (fun g t => g.addEdge t.1 t.2.1 (Regex.Symbol t.2.2.1) t.2.2.2) g) := by
  intro l
  induction l with
  | nil => intro g h _ _; simpa using h
  | cons t l ih =>
    intro g h hsub hval
    rw [List.foldl_cons]
    refine ih _ ?_ (fun u hu => hsub u (by simp [hu])) (fun u hu => hval u (by simp [hu]))
    exact impInv_addEdge h (hsub t (by simp)) (hval t (by simp)).1 (hval t (by simp)).2

/-- C5 amended: the stated invariant (out and in adjacency agreement, the
exactly-one trans-list property, and finality iff an accepting out-edge
exists) holds for every graph built by importing an NBA, that is, by a
sequence of tGraph.add_edge calls on a fresh graph; combine_duplicate_edge
and rip break the trans-list synchronization (see the counterexample) since
the former relabels only the adjacency copies and the latter bypasses the
trans-list and final-state bookkeeping. -/
theorem C5_amended_import (n init : Nat) (es : List (Nat × Nat × String × Bool))
    (hE : endpointsValid n es) (hF : flagFunctional es) :
    SpecInv (importTGraph n init es) := by
  have hI : ImpInv n es (importTGraph n init es) :=
    impInv_fold es (emptyTGraph n init) (impInv_empty n init es)
      (fun t ht => ht) (fun t ht => hE t ht)
  obtain ⟨hkeys, hwo, hwi, hmain, haccT, hnonT, hfin, hsup⟩ := hI
  have hnd : ((importTGraph n init es).vertices.map Prod.fst).Nodup := by
    rw [hkeys]
    exact List.nodup_range n
  constructor
  · intro p hp e he
    have hv : (importTGraph n init es).vtx p.1 = p.2 := vtx_mem_eq hnd hp
    rw [← hv] at he
    obtain ⟨h1, h2, h3⟩ := hmain p.1 e he
    obtain ⟨se, hse, hts⟩ := hsup p.1 e he
    refine ⟨⟨e, h1, rfl, rfl, rfl⟩, ?_, ?_⟩
    · intro hae
      refine ⟨⟨e, h2 hae, rfl, rfl, rfl⟩, ?_⟩
      rintro ⟨f, hf, hf1, hf2, hf3⟩
      obtain ⟨hfa, hfo⟩ := hnonT f hf
      obtain ⟨sf, hsf, htf⟩ := hsup f.src f hfo
      have hss : se = sf := by
        rw [hse] at hf3
        rw [hsf] at hf3
        exact (Regex.Symbol.injEq _ _ ▸ hf3.symm)
      have := hF _ hts _ htf (by rw [hf1]) (by rw [hf2]) (by rw [hss])
      rw [hae, hfa] at this
      cases this
    · intro hae
      refine ⟨⟨e, h3 hae, rfl, rfl, rfl⟩, ?_⟩
      rintro ⟨f, hf, hf1, hf2, hf3⟩
      obtain ⟨hfa, hfo⟩ := haccT f hf
      obtain ⟨sf, hsf, htf⟩ := hsup f.src f hfo
      have hss : se = sf := by
        rw [hse] at hf3
        rw [hsf] at hf3
        exact (Regex.Symbol.injEq _ _ ▸ hf3.symm)
      have := hF _ hts _ htf (by rw [hf1]) (by rw [hf2]) (by rw [hss])
      rw [hae, hfa] at this
      cases this
  · intro t
    exact hfin t

/-- Witness for C5 amended at the pseudo-accepting boundary scenario. -/
theorem C5_amended_import_witness :
    SpecInv (importTGraph 2 0 [(0, 1, "a", false), (1, 1, "b", true), (1, 1, "c", false)]) :=
  C5_amended_import 2 0 _ (by decide) (by decide)

/-! ## Effect of the removal and addition folds of rip -/

theorem mem_removeFirst {p : α → Bool} {l : List α} {x : α}
    (h : x ∈ removeFirst p l) : x ∈ l := by
  induction l with
  | nil => simp [removeFirst] at h
  | cons y ys ih =>
    simp only [removeFirst] at h
    by_cases hp : p y
    · rw [if_pos hp] at h
      exact List.mem_cons_of_mem _ h
    · rw [if_neg hp] at h
      rcases List.mem_cons.mp h with h1 | h1
      · exact h1 ▸ List.mem_cons_self _ _
      · exact List.mem_cons_of_mem _ (ih h1)

theorem mem_replaceFirst {p : α → Bool} {y : α} {l : List α} {x : α}
    (h : x ∈ replaceFirst p y l) : x ∈ l ∨ x = y := by
  induction l with
  | nil => simp [replaceFirst] at h
  | cons z zs ih =>
    simp only [replaceFirst] at h
    by_cases hp : p z
    · rw [if_pos hp] at h
      rcases List.mem_cons.mp h with h1 | h1
      · exact Or.inr h1
      · exact Or.inl (List.mem_cons_of_mem _ h1)
    · rw [if_neg hp] at h
      rcases List.mem_cons.mp h with h1 | h1
      · exact Or.inl (h1 ▸ List.mem_cons_self _ _)
      · rcases ih h1 with h2 | h2
        · exact Or.inl (List.mem_cons_of_mem _ h2)
        · exact Or.inr h2

theorem vtx_updVtx_cases (g : TGraph) (v : Nat) (f : Vtx → Vtx) (w : Nat) :
    (g.updVtx v f).vtx w = g.vtx w ∨ (w = v ∧ (g.updVtx v f).vtx w = f (g.vtx w)) := by
  by_cases hw : w = v
  · subst hw
    rcases ho : g.vertices.lookup w with _ | u
    · left
      simp [TGraph.vtx, TGraph.updVtx, lookup_map_hit, ho]
    · right
      exact ⟨rfl, vtx_updVtx_same (by simp [ho])⟩
  · exact Or.inl (vtx_updVtx_other hw)

theorem updVtx_num_states (g : TGraph) (v : Nat) (f : Vtx → Vtx) :
    (g.updVtx v f).num_states = g.num_states := rfl

theorem updVtx_trans (g : TGraph) (v : Nat) (f : Vtx → Vtx) :
    (g.updVtx v f).acc_trans = g.acc_trans ∧ (g.updVtx v f).nonacc_trans = g.nonacc_trans :=
  ⟨rfl, rfl⟩

/-- The self-match of the structural edge predicate. -/
theorem edgeMatch_self (e : Edge) : edgeMatch e e = true := by
  simp [edgeMatch]

/-- Removing, for each member of a list equal to the v-directed sublist of l,
the first structural match, erases exactly that sublist. -/
theorem removeFold_eq_filter (isV : Edge → Bool) :
    ∀ (rs l : List Edge), l.filter isV = rs →
      (∀ r ∈ rs, ∀ f, edgeMatch r f = true → isV f = true) →
      rs.foldl (fun cur r => removeFirst (edgeMatch r) cur) l
        = l.filter (fun e => !isV e) := by
  intro rs
  induction rs with
  | nil =>
    intro l hf _
    rw [List.foldl_nil]
    have hall : ∀ e ∈ l, isV e = false := by
      intro e he
      by_contra hne
      have : e ∈ l.filter isV := List.mem_filter.mpr ⟨he, by simpa using hne⟩
      rw [hf] at this
      simp at this
    exact (List.filter_eq_self.mpr (fun e he => by simp [hall e he])).symm
  | cons r rs ih =>
    intro l hf hm
    have hstep : ∃ l2, removeFirst (edgeMatch r) l = l2 ∧ l2.filter isV = rs ∧
        l2.filter (fun e => !isV e) = l.filter (fun e => !isV e) := by
      clear ih
      induction l with
      | nil => simp at hf
      | cons x xs ihl =>
        by_cases hx : isV x
        · rw [List.filter_cons_of_pos hx] at hf
          have hxr : x = r := (List.cons.injEq _ _ _ _ ▸ hf).1
          have hxs : xs.filter isV = rs := (List.cons.injEq _ _ _ _ ▸ hf).2
          refine ⟨xs, ?_, hxs, ?_⟩
          · simp only [removeFirst]
            rw [if_pos (hxr ▸ edgeMatch_self r)]
          · rw [List.filter_cons_of_neg (by simp [hx])]
        · rw [List.filter_cons_of_neg (by simpa using hx)] at hf
          obtain ⟨l2, h1, h2, h3⟩ := ihl hf
          refine ⟨x :: l2, ?_, ?_, ?_⟩
          · simp only [removeFirst]
            have hmx : edgeMatch r x = false := by
              by_contra hc
              exact hx (hm r (by simp) x (by simpa using hc))
            rw [if_neg (by simp [hmx]), h1]
          · rw [List.filter_cons_of_neg hx, h2]
          · rw [List.filter_cons_of_pos (by simp [hx]),
              List.filter_cons_of_pos (by simp [hx]), h3]
    obtain ⟨l2, h1, h2, h3⟩ := hstep
    rw [List.foldl_cons, h1, ih l2 h2 (fun q hq f hqf => hm q (by simp [hq]) f hqf)]
    exact h3

theorem vtx_updVtx_self (g : TGraph) (v : Nat) (f : Vtx → Vtx) :
    (g.updVtx v f).vtx v = f (g.vtx v) ∨
      ((g.updVtx v f).vtx v = g.vtx v ∧ g.vtx v = ⟨[], []⟩) := by
  rcases ho : g.vertices.lookup v with _ | u
  · right
    constructor <;> simp [TGraph.vtx, TGraph.updVtx, lookup_map_hit, ho]
  · exact Or.inl (vtx_updVtx_same (by simp [ho]))

theorem vtx_in_updOutF (h : TGraph) (src : Nat) (F : List Edge → List Edge) (w : Nat) :
    ((h.updVtx src (fun u => { u with out_edges := F u.out_edges })).vtx w).in_edges =
      (h.vtx w).in_edges := by
  by_cases hw : w = src
  · subst hw
    simp only [TGraph.vtx, TGraph.updVtx]
    rw [@lookup_map_hit h.vertices w (fun u => { u with out_edges := F u.out_edges })]
    rcases ho : h.vertices.lookup w with _ | u <;> simp
  · rw [vtx_updVtx_other hw]

theorem vtx_out_updInF (h : TGraph) (dst : Nat) (F : List Edge → List Edge) (w : Nat) :
    ((h.updVtx dst (fun u => { u with in_edges := F u.in_edges })).vtx w).out_edges =
      (h.vtx w).out_edges := by
  by_cases hw : w = dst
  · subst hw
    simp only [TGraph.vtx, TGraph.updVtx]
    rw [@lookup_map_hit h.vertices w (fun u => { u with in_edges := F u.in_edges })]
    rcases ho : h.vertices.lookup w with _ | u <;> simp
  · rw [vtx_updVtx_other hw]

/-- The first removal loop of rip: for each vertex, the first structural
matches of its own sublist of removal requests are erased from its out list;
in lists are untouched. -/
theorem foldRemoveOut_vtx (rs : List Edge) :
    ∀ (h : TGraph) (u : Nat),
      (((rs.foldl (fun hh ein => hh.updVtx ein.src
          (fun w => { w with out_edges := removeFirst (edgeMatch ein) w.out_edges })) h)).vtx u).out_edges
        = (rs.filter (fun e => e.src == u)).foldl
            (fun cur r => removeFirst (edgeMatch r) cur) ((h.vtx u).out_edges) ∧
      (((rs.foldl (fun hh ein => hh.updVtx ein.src
          (fun w => { w with out_edges := removeFirst (edgeMatch ein) w.out_edges })) h)).vtx u).in_edges
        = (h.vtx u).in_edges := by
  induction rs with
  | nil => intro h u; simp
  | cons r rs ih =>
    intro h u
    rw [List.foldl_cons]
    obtain ⟨iho, ihi⟩ := ih (h.updVtx r.src
      (fun w => { w with out_edges := removeFirst (edgeMatch r) w.out_edges })) u
    by_cases hu : r.src = u
    · rw [List.filter_cons_of_pos (by simp [hu])]
      constructor
      · rw [iho, List.foldl_cons]
        subst hu
        rcases vtx_updVtx_self h r.src
            (fun w => { w with out_edges := removeFirst (edgeMatch r) w.out_edges }) with hc | ⟨hc, hd⟩
        · rw [hc]
        · rw [hc, hd]
          simp [removeFirst]
      · rw [ihi, vtx_in_updOutF]
    · rw [List.filter_cons_of_neg (by simp [hu])]
      constructor
      · rw [iho, vtx_updVtx_other (Ne.symm hu)]
      · rw [ihi, vtx_updVtx_other (Ne.symm hu)]

/-- The second removal loop of rip, symmetric on in lists. -/
theorem foldRemoveIn_vtx (rs : List Edge) :
    ∀ (h : TGraph) (u : Nat),
      (((rs.foldl (fun hh eout => hh.updVtx eout.dst
          (fun w => { w with in_edges := removeFirst (edgeMatch eout) w.in_edges })) h)).vtx u).in_edges
        = (rs.filter (fun e => e.dst == u)).foldl
            (fun cur r => removeFirst (edgeMatch r) cur) ((h.vtx u).in_edges) ∧
      (((rs.foldl (fun hh eout => hh.updVtx eout.dst
          (fun w => { w with in_edges := removeFirst (edgeMatch eout) w.in_edges })) h)).vtx u).out_edges
        = (h.vtx u).out_edges := by
  induction rs with
  | nil => intro h u; simp
  | cons r rs ih =>
    intro h u
    rw [List.foldl_cons]
    obtain ⟨ihi, iho⟩ := ih (h.updVtx r.dst
      (fun w => { w with in_edges := removeFirst (edgeMatch r) w.in_edges })) u
    by_cases hu : r.dst = u
    · rw [List.filter_cons_of_pos (by simp [hu])]
      constructor
      · rw [ihi, List.foldl_cons]
        subst hu
        rcases vtx_updVtx_self h r.dst
            (fun w => { w with in_edges := removeFirst (edgeMatch r) w.in_edges }) with hc | ⟨hc, hd⟩
        · rw [hc]
        · rw [hc, hd]
          simp [removeFirst]
      · rw [iho, vtx_out_updInF]
    · rw [List.filter_cons_of_neg (by simp [hu])]
      constructor
      · rw [ihi, vtx_updVtx_other (Ne.symm hu)]
      · rw [iho, vtx_updVtx_other (Ne.symm hu)]

theorem foldRemoveOut_keys (rs : List Edge) :
    ∀ (h : TGraph),
      ((rs.foldl (fun hh ein => hh.updVtx ein.src
          (fun w => { w with out_edges := removeFirst (edgeMatch ein) w.out_edges })) h)).vertices.map Prod.fst
        = h.vertices.map Prod.fst := by
  induction rs with
  | nil => intro h; rfl
  | cons r rs ih => intro h; rw [List.foldl_cons, ih, updVtx_keys]

theorem foldRemoveIn_keys (rs : List Edge) :
    ∀ (h : TGraph),
      ((rs.foldl (fun hh eout => hh.updVtx eout.dst
          (fun w => { w with in_edges := removeFirst (edgeMatch eout) w.in_edges })) h)).vertices.map Prod.fst
        = h.vertices.map Prod.fst := by
  induction rs with
  | nil => intro h; rfl
  | cons r rs ih => intro h; rw [List.foldl_cons, ih, updVtx_keys]

/-- The addition loop of rip: each vertex receives, in order, the added
edges whose source (respectively destination) it is. -/
theorem foldAdd_vtx (ts : List (Nat × Nat × Regex × Bool)) :
    ∀ (h : TGraph) (u : Nat),
      (∀ t ∈ ts, t.1 ∈ h.vertices.map Prod.fst ∧ t.2.1 ∈ h.vertices.map Prod.fst) →
      (((ts.foldl (fun hh t => hh.addEdge t.1 t.2.1 t.2.2.1 t.2.2.2) h)).vtx u).out_edges
        = (h.vtx u).out_edges ++
            (ts.filter (fun t => t.1 == u)).map (fun t => (⟨t.1, t.2.1, t.2.2.1, t.2.2.2⟩ : Edge)) ∧
      (((ts.foldl (fun hh t => hh.addEdge t.1 t.2.1 t.2.2.1 t.2.2.2) h)).vtx u).in_edges
        = (h.vtx u).in_edges ++
            (ts.filter (fun t => t.2.1 == u)).map (fun t => (⟨t.1, t.2.1, t.2.2.1, t.2.2.2⟩ : Edge)) := by
  induction ts with
  | nil => intro h u _; simp
  | cons t ts ih =>
    intro h u hk
    rw [List.foldl_cons]
    have hksrc : (h.vertices.lookup t.1).isSome :=
      lookup_isSome_of_mem_keys (hk t (by simp)).1
    have hkdst : (h.vertices.lookup t.2.1).isSome :=
      lookup_isSome_of_mem_keys (hk t (by simp)).2
    have hk2 : ∀ q ∈ ts, q.1 ∈ (h.addEdge t.1 t.2.1 t.2.2.1 t.2.2.2).vertices.map Prod.fst ∧
        q.2.1 ∈ (h.addEdge t.1 t.2.1 t.2.2.1 t.2.2.2).vertices.map Prod.fst := by
      intro q hq
      rw [addEdge_keys]
      exact hk q (by simp [hq])
    obtain ⟨iho, ihi⟩ := ih (h.addEdge t.1 t.2.1 t.2.2.1 t.2.2.2) u hk2
    constructor
    · rw [iho, @addEdge_vtx_out h t.1 t.2.1 t.2.2.1 t.2.2.2 hksrc u]
      by_cases hu : t.1 = u
      · rw [if_pos (by simp [hu]), List.filter_cons_of_pos (by simp [hu]), List.map_cons,
          List.append_assoc]
        simp [hu]
      · rw [if_neg (Ne.symm hu), List.filter_cons_of_neg (by simp [hu])]
    · rw [ihi, @addEdge_vtx_in h t.1 t.2.1 t.2.2.1 t.2.2.2 hkdst u]
      by_cases hu : t.2.1 = u
      · rw [if_pos (by simp [hu]), List.filter_cons_of_pos (by simp [hu]), List.map_cons,
          List.append_assoc]
        simp [hu]
      · rw [if_neg (Ne.symm hu), List.filter_cons_of_neg (by simp [hu])]

theorem foldAdd_keys (ts : List (Nat × Nat × Regex × Bool)) :
    ∀ (h : TGraph),
      ((ts.foldl (fun hh t => hh.addEdge t.1 t.2.1 t.2.2.1 t.2.2.2) h)).vertices.map Prod.fst
        = h.vertices.map Prod.fst := by
  induction ts with
  | nil => intro h; rfl
  | cons t ts ih => intro h; rw [List.foldl_cons, ih, addEdge_keys]

theorem lookup_filter_ne {l : List (Nat × Vtx)} {u v : Nat} (h : u ≠ v) :
    (l.filter (fun p => p.1 ≠ v)).lookup u = l.lookup u := by
  induction l with
  | nil => rfl
  | cons p l ih =>
    by_cases hp : p.1 = v
    · rw [List.filter_cons_of_neg (by simp [hp])]
      have hb : (u == p.1) = false := by
        rw [beq_eq_false_iff_ne]
        rw [hp]
        exact h
      simp only [List.lookup, hb, ih]
    · rw [List.filter_cons_of_pos (by simp [hp])]
      simp only [List.lookup, ih]

/-! ## Decomposition of the added-edge list of rip -/

theorem find?_eq_head_filter (p : α → Bool) (l : List α) :
    l.find? p = (l.filter p).head? := by
  induction l with
  | nil => rfl
  | cons x xs ih =>
    by_cases hx : p x
    · rw [List.find?_cons_of_pos _ hx, List.filter_cons_of_pos hx, List.head?_cons]
    · rw [List.find?_cons_of_neg _ (by simpa using hx), List.filter_cons_of_neg (by simpa using hx), ih]

theorem filter_flatMap_comm (l : List α) (f : α → List β) (p : β → Bool) :
    (l.flatMap f).filter p = l.flatMap (fun a => (f a).filter p) := by
  induction l with
  | nil => rfl
  | cons x xs ih => simp [List.flatMap_cons, List.filter_append, ih]

theorem flatMap_filter_of_nil (l : List α) (f : α → List β) (q : α → Bool)
    (h : ∀ a ∈ l, q a = false → f a = []) :
    l.flatMap f = (l.filter q).flatMap f := by
  induction l with
  | nil => rfl
  | cons x xs ih =>
    by_cases hx : q x
    · rw [List.flatMap_cons, List.filter_cons_of_pos hx, List.flatMap_cons,
        ih (fun a ha hq => h a (by simp [ha]) hq)]
    · rw [List.flatMap_cons, List.filter_cons_of_neg (by simpa using hx),
        h x (by simp) (by simpa using hx), List.nil_append,
        ih (fun a ha hq => h a (by simp [ha]) hq)]

theorem ripAdded_inner_src {outs : List Edge} {v u : Nat} {ein : Edge}
    (hs : ein.src = u) (hu : u ≠ v) (L : Edge → Edge → Regex) :
    (outs.filterMap (fun eout =>
        if ein.src = v ∨ eout.dst = v then none
        else some (ein.src, eout.dst, L ein eout, ein.accepting))).filter
          (fun t => t.1 == u)
      = (outs.filter (fun e => !(e.dst == v))).map
          (fun eout => (u, eout.dst, L ein eout, ein.accepting)) := by
  induction outs with
  | nil => rfl
  | cons eo os ih =>
    by_cases hd : eo.dst = v
    · rw [List.filterMap_cons_none (by simp [hd]), List.filter_cons_of_neg (by simp [hd]), ih]
    · have hcond : ¬(ein.src = v ∨ eo.dst = v) := by
        rintro (h1 | h2)
        · exact hu (hs ▸ h1)
        · exact hd h2
      simp only [List.filterMap_cons, if_neg hcond]
      rw [List.filter_cons_of_pos (by simp [hs]), List.filter_cons_of_pos (by simp [hd]),
        List.map_cons, ih, hs]

theorem ripAdded_inner_nosrc {outs : List Edge} {v u : Nat} {ein : Edge}
    (hs : ein.src ≠ u) (L : Edge → Edge → Regex) :
    (outs.filterMap (fun eout =>
        if ein.src = v ∨ eout.dst = v then none
        else some (ein.src, eout.dst, L ein eout, ein.accepting))).filter
          (fun t => t.1 == u)
      = [] := by
  induction outs with
  | nil => rfl
  | cons eo os ih =>
    by_cases hn : ein.src = v ∨ eo.dst = v
    · rw [List.filterMap_cons_none (by simp [hn]), ih]
    · simp only [List.filterMap_cons, if_neg hn]
      rw [List.filter_cons_of_neg (by simp [hs]), ih]

/-- The added edges whose source is a fixed vertex u other than the ripped
one: the product of the in-edges from u with the non-self out-edges. -/
theorem flatMap_congr_mem {l : List α} {f g : α → List β}
    (h : ∀ a ∈ l, f a = g a) : l.flatMap f = l.flatMap g := by
  induction l with
  | nil => rfl
  | cons x xs ih =>
    rw [List.flatMap_cons, List.flatMap_cons, h x (by simp),
      ih (fun a ha => h a (by simp [ha]))]

theorem ripAdded_filter_src (g : TGraph) (v u : Nat) (hu : u ≠ v) :
    (ripAdded g v).filter (fun t => t.1 == u)
      = ((g.vtx v).in_edges.filter (fun e => e.src == u)).flatMap (fun ein =>
          ((g.vtx v).out_edges.filter (fun e => !(e.dst == v))).map
            (fun eout => (u, eout.dst, ripLabel (ripRrip g v) ein.label eout.label, ein.accepting))) := by
  rw [ripAdded, filter_flatMap_comm]
  rw [flatMap_filter_of_nil _ _ (fun e => e.src == u)
    (fun a _ hq => @ripAdded_inner_nosrc (g.vtx v).out_edges v u a (by simpa using hq)
      (fun x y => ripLabel (ripRrip g v) x.label y.label))]
  exact flatMap_congr_mem (fun a ha =>
    @ripAdded_inner_src (g.vtx v).out_edges v u a
      (by simpa using (List.mem_filter.mp ha).2) hu
      (fun x y => ripLabel (ripRrip g v) x.label y.label))

theorem ripAdded_inner_dst {outs : List Edge} {v u : Nat} {ein : Edge}
    (hsv : ein.src ≠ v) (hu : u ≠ v) (L : Edge → Edge → Regex) :
    (outs.filterMap (fun eout =>
        if ein.src = v ∨ eout.dst = v then none
        else some (ein.src, eout.dst, L ein eout, ein.accepting))).filter
          (fun t => t.2.1 == u)
      = (outs.filter (fun e => e.dst == u)).map
          (fun eout => (ein.src, u, L ein eout, ein.accepting)) := by
  induction outs with
  | nil => rfl
  | cons eo os ih =>
    by_cases hd : eo.dst = v
    · rw [List.filterMap_cons_none (by simp [hd]),
        List.filter_cons_of_neg (by simp [hd, Ne.symm hu]), ih]
    · have hcond : ¬(ein.src = v ∨ eo.dst = v) := by
        rintro (h1 | h2)
        · exact hsv h1
        · exact hd h2
      simp only [List.filterMap_cons, if_neg hcond]
      by_cases hdu : eo.dst = u
      · rw [List.filter_cons_of_pos (by simp [hdu]), List.filter_cons_of_pos (by simp [hdu]),
          List.map_cons, ih, hdu]
      · rw [List.filter_cons_of_neg (by simp [hdu]), List.filter_cons_of_neg (by simp [hdu]), ih]

theorem ripAdded_inner_vsrc {outs : List Edge} {v : Nat} {ein : Edge} (p : (Nat × Nat × Regex × Bool) → Bool)
    (hsv : ein.src = v) (L : Edge → Edge → Regex) :
    (outs.filterMap (fun eout =>
        if ein.src = v ∨ eout.dst = v then none
        else some (ein.src, eout.dst, L ein eout, ein.accepting))).filter p
      = [] := by
  induction outs with
  | nil => rfl
  | cons eo os ih =>
    rw [List.filterMap_cons_none (by simp [hsv]), ih]

theorem ripAdded_filter_dst (g : TGraph) (v u : Nat) (hu : u ≠ v) :
    (ripAdded g v).filter (fun t => t.2.1 == u)
      = ((g.vtx v).in_edges.filter (fun e => !(e.src == v))).flatMap (fun ein =>
          ((g.vtx v).out_edges.filter (fun e => e.dst == u)).map
            (fun eout => (ein.src, u, ripLabel (ripRrip g v) ein.label eout.label, ein.accepting))) := by
  rw [ripAdded, filter_flatMap_comm]
  rw [flatMap_filter_of_nil _ _ (fun e => !(e.src == v))
    (fun a _ hq => @ripAdded_inner_vsrc (g.vtx v).out_edges v a _ (by simpa using hq)
      (fun x y => ripLabel (ripRrip g v) x.label y.label))]
  exact flatMap_congr_mem (fun a ha =>
    @ripAdded_inner_dst (g.vtx v).out_edges v u a
      (by simpa using (List.mem_filter.mp ha).2) hu
      (fun x y => ripLabel (ripRrip g v) x.label y.label))

theorem mem_ripAdded {g : TGraph} {v : Nat} {t : Nat × Nat × Regex × Bool}
    (h : t ∈ ripAdded g v) :
    ∃ ein ∈ (g.vtx v).in_edges, ∃ eout ∈ (g.vtx v).out_edges,
      t.1 = ein.src ∧ t.2.1 = eout.dst := by
  rw [ripAdded] at h
  rcases List.mem_flatMap.mp h with ⟨ein, hin, hmem⟩
  rcases List.mem_filterMap.mp hmem with ⟨eout, hout, hsome⟩
  by_cases hc : ein.src = v ∨ eout.dst = v
  · rw [if_pos hc] at hsome
    cases hsome
  · rw [if_neg hc] at hsome
    have := Option.some.inj hsome
    exact ⟨ein, hin, eout, hout, by rw [← this], by rw [← this]⟩

theorem foldRemoveOut_misc (rs : List Edge) :
    ∀ (h : TGraph),
      ((rs.foldl (fun hh ein => hh.updVtx ein.src
          (fun w => { w with out_edges := removeFirst (edgeMatch ein) w.out_edges })) h)).num_states
        = h.num_states := by
  induction rs with
  | nil => intro h; rfl
  | cons r rs ih => intro h; rw [List.foldl_cons, ih]; rfl

theorem foldRemoveIn_misc (rs : List Edge) :
    ∀ (h : TGraph),
      ((rs.foldl (fun hh eout => hh.updVtx eout.dst
          (fun w => { w with in_edges := removeFirst (edgeMatch eout) w.in_edges })) h)).num_states
        = h.num_states := by
  induction rs with
  | nil => intro h; rfl
  | cons r rs ih => intro h; rw [List.foldl_cons, ih]; rfl

theorem addEdge_num_states (g : TGraph) (src dst : Nat) (lbl : Regex) (acc : Bool) :
    (g.addEdge src dst lbl acc).num_states = g.num_states := by
  by_cases hacc : acc <;> simp [TGraph.addEdge, TGraph.updVtx, hacc]

theorem foldAdd_misc (ts : List (Nat × Nat × Regex × Bool)) :
    ∀ (h : TGraph),
      ((ts.foldl (fun hh t => hh.addEdge t.1 t.2.1 t.2.2.1 t.2.2.2) h)).num_states
        = h.num_states := by
  induction ts with
  | nil => intro h; rfl
  | cons t ts ih => intro h; rw [List.foldl_cons, ih, addEdge_num_states]

/-! ## Claim C8: the characterization of rip -/

theorem of_edgeMatch {a f : Edge} (h : edgeMatch a f = true) :
    f.src = a.src ∧ f.dst = a.dst ∧ f.label = a.label := by
  simpa [edgeMatch] using h

theorem ripStage1_out {g : TGraph} {v : Nat} (u : Nat)
    (hwi : ∀ e ∈ (g.vtx v).in_edges, e.dst = v)
    (houtc : (g.vtx v).in_edges.filter (fun e => e.src == u)
      = (g.vtx u).out_edges.filter (fun e => e.dst == v)) :
    ((ripStage1 g v).vtx u).out_edges
      = (g.vtx u).out_edges.filter (fun e => !(e.dst == v)) := by
  rw [ripStage1]
  rw [(foldRemoveOut_vtx (g.vtx v).in_edges g u).1]
  refine removeFold_eq_filter (fun e => e.dst == v) _ _ houtc.symm ?_
  intro r hr f hf
  have hrv : r.dst = v := hwi r (List.mem_filter.mp hr).1
  have := (of_edgeMatch hf).2.1
  simp [this, hrv]

theorem ripStage1_in {g : TGraph} {v : Nat} (u : Nat) :
    ((ripStage1 g v).vtx u).in_edges = (g.vtx u).in_edges :=
  (foldRemoveOut_vtx (g.vtx v).in_edges g u).2

theorem ripStage2_out {g : TGraph} {v : Nat} (u : Nat) :
    ((ripStage2 g v).vtx u).out_edges = ((ripStage1 g v).vtx u).out_edges :=
  (foldRemoveIn_vtx ((ripStage1 g v).vtx v).out_edges (ripStage1 g v) u).2

theorem ripStage2_in {g : TGraph} {v u : Nat} (hu : u ≠ v)
    (hwi : ∀ e ∈ (g.vtx v).in_edges, e.dst = v)
    (houtcv : (g.vtx v).in_edges.filter (fun e => e.src == v)
      = (g.vtx v).out_edges.filter (fun e => e.dst == v))
    (hinc : (g.vtx v).out_edges.filter (fun e => e.dst == u)
      = (g.vtx u).in_edges.filter (fun e => e.src == v)) :
    ((ripStage2 g v).vtx u).in_edges
      = (g.vtx u).in_edges.filter (fun e => !(e.src == v)) := by
  have houts2 : ((ripStage1 g v).vtx v).out_edges
      = (g.vtx v).out_edges.filter (fun e => !(e.dst == v)) :=
    ripStage1_out v hwi houtcv
  rw [ripStage2]
  rw [(foldRemoveIn_vtx ((ripStage1 g v).vtx v).out_edges (ripStage1 g v) u).1]
  rw [ripStage1_in u]
  have hfilt : ((ripStage1 g v).vtx v).out_edges.filter (fun e => e.dst == u)
      = (g.vtx u).in_edges.filter (fun e => e.src == v) := by
    rw [houts2, List.filter_filter]
    rw [← hinc]
    refine List.filter_congr ?_
    intro e _
    by_cases hd : e.dst = u
    · simp [hd, hu]
    · simp [hd]
  rw [hfilt]
  refine removeFold_eq_filter (fun e => e.src == v) _ _ rfl ?_
  intro r hr f hf
  have hrv : (r.src == v) = true := (List.mem_filter.mp hr).2
  have := (of_edgeMatch hf).1
  simp only [this]
  exact hrv

theorem ripStage2_keys (g : TGraph) (v : Nat) :
    (ripStage2 g v).vertices.map Prod.fst = g.vertices.map Prod.fst := by
  rw [ripStage2, foldRemoveIn_keys, ripStage1, foldRemoveOut_keys]

theorem ripStage3_vtx {g : TGraph} {v : Nat} (u : Nat)
    (hkin : ∀ e ∈ (g.vtx v).in_edges, e.src ∈ g.vertices.map Prod.fst)
    (hkout : ∀ e ∈ (g.vtx v).out_edges, e.dst ∈ g.vertices.map Prod.fst) :
    ((ripStage3 g v).vtx u).out_edges
      = ((ripStage2 g v).vtx u).out_edges ++
          ((ripAdded g v).filter (fun t => t.1 == u)).map
            (fun t => (⟨t.1, t.2.1, t.2.2.1, t.2.2.2⟩ : Edge)) ∧
    ((ripStage3 g v).vtx u).in_edges
      = ((ripStage2 g v).vtx u).in_edges ++
          ((ripAdded g v).filter (fun t => t.2.1 == u)).map
            (fun t => (⟨t.1, t.2.1, t.2.2.1, t.2.2.2⟩ : Edge)) := by
  rw [ripStage3]
  refine foldAdd_vtx (ripAdded g v) (ripStage2 g v) u ?_
  intro t ht
  obtain ⟨ein, hin, eout, hout, h1, h2⟩ := mem_ripAdded ht
  rw [ripStage2_keys, h1, h2]
  exact ⟨hkin ein hin, hkout eout hout⟩

theorem rip_vtx_stage3 {g : TGraph} {v u : Nat} (hu : u ≠ v) :
    (g.rip v).vtx u = (ripStage3 g v).vtx u := by
  simp only [TGraph.rip, TGraph.vtx]
  rw [lookup_filter_ne hu]

theorem vtx_absent {g : TGraph} {u : Nat} (h : u ∉ g.vertices.map Prod.fst) :
    g.vtx u = ⟨[], []⟩ := by
  rcases ho : g.vertices.lookup u with _ | w
  · simp [TGraph.vtx, ho]
  · exact absurd (lookup_isSome_iff.mp (by simp [ho])) h

/-- C8 counterexample: vertex 1 of gRip carries two self-loops (accepting a
first, non-accepting b second), yet rip uses only the label of the first:
the produced edge is c(a)*d, not the claimed c(a|b)*d. -/
theorem C8_counterexample :
    ((gRip.vtx 1).out_edges.filter (fun e => e.src == e.dst)).length = 2 ∧
    ((gRip.rip 1).vtx 0).out_edges =
      [⟨0, 2, Regex.Concat (Regex.Symbol "c")
        (Regex.Concat (Regex.Star (Regex.Symbol "a")) (Regex.Symbol "d")), false⟩] ∧
    ¬ structIn ⟨0, 2, Regex.Concat (Regex.Symbol "c")
        (Regex.Concat (Regex.Star (Regex.Union (Regex.Symbol "a") (Regex.Symbol "b")))
          (Regex.Symbol "d")), false⟩ ((gRip.rip 1).vtx 0).out_edges := by
  refine ⟨by decide, by decide, by decide⟩

/-- C8 amended: rip(g, v) takes r_rip from the FIRST self-loop of v in
out-edge order (None when there is none, further self-loop labels are
discarded); for every in-edge (u, v, lu, acc_u) with u distinct from v and
every out-edge (v, w, lw) with w distinct from v it adds exactly one edge
(u, w) labelled lu (r_rip)* lw (the starred factor omitted when r_rip is
None) whose accepting flag is acc_u, appended in nested loop order; then v
and all adjacency edges incident to v are removed and num_states drops by
one.  The hypotheses are the adjacency-consistency facts holding for
imported graphs, bounded to the stored vertex keys. -/
theorem C8_amended_rip (g : TGraph) (v : Nat)
    (hwi : ∀ u ∈ g.vertices.map Prod.fst, ∀ e ∈ (g.vtx u).in_edges, e.dst = u)
    (houtc : ∀ u ∈ g.vertices.map Prod.fst,
      (g.vtx v).in_edges.filter (fun e => e.src == u)
        = (g.vtx u).out_edges.filter (fun e => e.dst == v))
    (hinc : ∀ u ∈ g.vertices.map Prod.fst, u ≠ v →
      (g.vtx v).out_edges.filter (fun e => e.dst == u)
        = (g.vtx u).in_edges.filter (fun e => e.src == v))
    (_hv : v ∈ g.vertices.map Prod.fst)
    (hkin : ∀ e ∈ (g.vtx v).in_edges, e.src ∈ g.vertices.map Prod.fst)
    (hkout : ∀ e ∈ (g.vtx v).out_edges, e.dst ∈ g.vertices.map Prod.fst) :
    ripRrip g v
      = (((g.vtx v).out_edges.filter (fun e => e.src == e.dst)).head?).map (fun e => e.label) ∧
    v ∉ (g.rip v).vertices.map Prod.fst ∧
    (g.rip v).num_states = g.num_states - 1 ∧
    (∀ u, u ≠ v →
      ((g.rip v).vtx u).out_edges
        = (g.vtx u).out_edges.filter (fun e => !(e.dst == v))
          ++ ((g.vtx v).in_edges.filter (fun e => e.src == u)).flatMap (fun ein =>
               ((g.vtx v).out_edges.filter (fun e => !(e.dst == v))).map
                 (fun eout => (⟨u, eout.dst,
                   ripLabel (ripRrip g v) ein.label eout.label, ein.accepting⟩ : Edge)))) ∧
    (∀ u, u ≠ v →
      ((g.rip v).vtx u).in_edges
        = (g.vtx u).in_edges.filter (fun e => !(e.src == v))
          ++ ((g.vtx v).in_edges.filter (fun e => !(e.src == v))).flatMap (fun ein =>
               ((g.vtx v).out_edges.filter (fun e => e.dst == u)).map
                 (fun eout => (⟨ein.src, u,
                   ripLabel (ripRrip g v) ein.label eout.label, ein.accepting⟩ : Edge)))) := by
  have hwiU : ∀ u : Nat, ∀ e ∈ (g.vtx u).in_edges, e.dst = u := by
    intro u e he
    by_cases hu : u ∈ g.vertices.map Prod.fst
    · exact hwi u hu e he
    · rw [vtx_absent hu] at he
      simp at he
  have houtcU : ∀ u : Nat, (g.vtx v).in_edges.filter (fun e => e.src == u)
      = (g.vtx u).out_edges.filter (fun e => e.dst == v) := by
    intro u
    by_cases hu : u ∈ g.vertices.map Prod.fst
    · exact houtc u hu
    · have h1 : (g.vtx v).in_edges.filter (fun e => e.src == u) = [] := by
        rw [List.filter_eq_nil_iff]
        intro e he
        simp only [beq_iff_eq]
        intro hs
        exact hu (hs ▸ hkin e he)
      rw [h1, vtx_absent hu]
      rfl
  have hincU : ∀ u : Nat, u ≠ v → (g.vtx v).out_edges.filter (fun e => e.dst == u)
      = (g.vtx u).in_edges.filter (fun e => e.src == v) := by
    intro u hune
    by_cases hu : u ∈ g.vertices.map Prod.fst
    · exact hinc u hu hune
    · have h1 : (g.vtx v).out_edges.filter (fun e => e.dst == u) = [] := by
        rw [List.filter_eq_nil_iff]
        intro e he
        simp only [beq_iff_eq]
        intro hs
        exact hu (hs ▸ hkout e he)
      rw [h1, vtx_absent hu]
      rfl
  have hwiv : ∀ e ∈ (g.vtx v).in_edges, e.dst = v := fun e he => hwiU v e he
  refine ⟨?_, ?_, ?_, ?_, ?_⟩
  · rw [ripRrip, TGraph.selfLoop, find?_eq_head_filter]
  · intro hmem
    rcases List.mem_map.mp hmem with ⟨p, hp, hk⟩
    have hne : p.1 ≠ v := by
      simpa using (List.mem_filter.mp (show p ∈ (ripStage3 g v).vertices.filter
        (fun q => q.1 ≠ v) from hp)).2
    exact hne hk
  · show (ripStage3 g v).num_states - 1 = g.num_states - 1
    rw [ripStage3, foldAdd_misc, ripStage2, foldRemoveIn_misc, ripStage1, foldRemoveOut_misc]
  · intro u hu
    rw [rip_vtx_stage3 hu, (ripStage3_vtx u hkin hkout).1, ripStage2_out u,
      ripStage1_out u hwiv (houtcU u), ripAdded_filter_src g v u hu]
    rw [List.map_flatMap]
    congr 1
    refine flatMap_congr_mem ?_
    intro a _
    rw [List.map_map]
    rfl
  · intro u hu
    rw [rip_vtx_stage3 hu, (ripStage3_vtx u hkin hkout).2,
      ripStage2_in hu hwiv (houtcU v) (hincU u hu), ripAdded_filter_dst g v u hu]
    rw [List.map_flatMap]
    congr 1
    refine flatMap_congr_mem ?_
    intro a _
    rw [List.map_map]
    rfl

/-- Witness for C8 amended at the two-state scenario graph, ripping its
vertex 1. -/
theorem C8_amended_rip_witness :
    ripRrip gTwo 1
      = (((gTwo.vtx 1).out_edges.filter (fun e => e.src == e.dst)).head?).map (fun e => e.label) ∧
    1 ∉ (gTwo.rip 1).vertices.map Prod.fst ∧
    (gTwo.rip 1).num_states = gTwo.num_states - 1 ∧
    (∀ u, u ≠ 1 →
      ((gTwo.rip 1).vtx u).out_edges
        = (gTwo.vtx u).out_edges.filter (fun e => !(e.dst == 1))
          ++ ((gTwo.vtx 1).in_edges.filter (fun e => e.src == u)).flatMap (fun ein =>
               ((gTwo.vtx 1).out_edges.filter (fun e => !(e.dst == 1))).map
                 (fun eout => (⟨u, eout.dst,
                   ripLabel (ripRrip gTwo 1) ein.label eout.label, ein.accepting⟩ : Edge)))) ∧
    (∀ u, u ≠ 1 →
      ((gTwo.rip 1).vtx u).in_edges
        = (gTwo.vtx u).in_edges.filter (fun e => !(e.src == 1))
          ++ ((gTwo.vtx 1).in_edges.filter (fun e => !(e.src == 1))).flatMap (fun ein =>
               ((gTwo.vtx 1).out_edges.filter (fun e => e.dst == u)).map
                 (fun eout => (⟨ein.src, u,
                   ripLabel (ripRrip gTwo 1) ein.label eout.label, ein.accepting⟩ : Edge)))) :=
  C8_amended_rip gTwo 1 (by decide) (by decide) (by decide) (by decide) (by decide) (by decide)

/-! ## Language lemmas for the acceptance-mode and emptiness claims -/

theorem rmatch_nil_nullable {e : Regex} {w : List String} (h : RMatch e w) :
    w = [] → e.nullable = true := by
  induction h with
  | sym s => intro hw; cases hw
  | eps => intro _; rfl
  | cat h1 h2 ih1 ih2 =>
    intro hw
    rcases List.append_eq_nil.mp hw with ⟨hw1, hw2⟩
    simp [Regex.nullable, ih1 hw1, ih2 hw2]
  | unionL h ih => intro hw; simp [Regex.nullable, ih hw]
  | unionR h ih => intro hw; simp [Regex.nullable, ih hw]
  | starNil e => intro _; rfl
  | starCons h1 h2 ih1 ih2 => intro _; rfl

theorem synthBuilt_not_eps_empty {r : Regex} (h : SynthBuilt r) :
    r ≠ Regex.Epsilon ∧ r ≠ Regex.Empty := by
  cases h <;> exact ⟨fun hc => Regex.noConfusion hc, fun hc => Regex.noConfusion hc⟩

theorem rmatch_concat_inv {l r : Regex} {w : List String}
    (h : RMatch (Regex.Concat l r) w) :
    ∃ w1 w2, w = w1 ++ w2 ∧ RMatch l w1 ∧ RMatch r w2 := by
  cases h with
  | cat h1 h2 => exact ⟨_, _, rfl, h1, h2⟩

theorem rmatch_union_inv {l r : Regex} {w : List String}
    (h : RMatch (Regex.Union l r) w) : RMatch l w ∨ RMatch r w := by
  cases h with
  | unionL h => exact Or.inl h
  | unionR h => exact Or.inr h

theorem rmatch_symbol_inv {s : String} {w : List String}
    (h : RMatch (Regex.Symbol s) w) : w = [s] := by
  cases h; rfl

theorem firstOK_union {F : String → Prop} {l r : Regex}
    (hl : firstOK F l) (hr : firstOK F r) : firstOK F (Regex.Union l r) := by
  intro s rest h
  rcases rmatch_union_inv h with h | h
  · exact hl s rest h
  · exact hr s rest h

theorem firstOK_concat_left {F : String → Prop} {l r : Regex}
    (hn : l.nullable = false) (hl : firstOK F l) : firstOK F (Regex.Concat l r) := by
  intro s rest h
  rcases rmatch_concat_inv h with ⟨w1, w2, hw, h1, h2⟩
  cases w1 with
  | nil => rw [rmatch_nil_nullable h1 rfl] at hn; cases hn
  | cons a t =>
    simp only [List.cons_append] at hw
    injection hw with hh ht
    subst hh
    exact hl _ _ h1

theorem rmatch_star_first {F : String → Prop} {x : Regex} {w : List String}
    (h : RMatch x w) :
    ∀ e, x = Regex.Star e → firstOK F e → ∀ s rest, w = s :: rest → F s := by
  induction h with
  | sym s => intro e he; cases he
  | eps => intro e he; cases he
  | cat h1 h2 ih1 ih2 => intro e he; cases he
  | unionL h ih => intro e he; cases he
  | unionR h ih => intro e he; cases he
  | starNil e0 => intro e he hF s rest hw; cases hw
  | starCons h1 h2 ih1 ih2 =>
    intro e he hF s rest hw
    injection he with hee
    subst hee
    rename_i w1 w2
    cases w1 with
    | nil =>
      simp only [List.nil_append] at hw
      exact ih2 _ rfl hF s rest hw
    | cons a t =>
      simp only [List.cons_append] at hw
      injection hw with hh ht
      subst hh
      exact hF _ _ h1

theorem firstOK_star {F : String → Prop} {e : Regex}
    (he : firstOK F e) : firstOK F (Regex.Star e) := by
  intro s rest h
  exact rmatch_star_first h e rfl he s rest rfl

theorem firstOK_concat_star {F : String → Prop} {a b : Regex}
    (ha : firstOK F a) (hb : firstOK F b) :
    firstOK F (Regex.Concat (Regex.Star a) b) := by
  intro s rest h
  rcases rmatch_concat_inv h with ⟨w1, w2, hw, h1, h2⟩
  cases w1 with
  | nil =>
    simp only [List.nil_append] at hw
    exact hb s rest (by rw [← hw] at h2; exact h2)
  | cons x t =>
    simp only [List.cons_append] at hw
    injection hw with hh ht
    subst hh
    exact firstOK_star ha _ _ h1

theorem builtNonNull_props {r : Regex} (h1 : SynthBuilt r) (h2 : r.nullable = false) :
    r ≠ Regex.Epsilon ∧ r ≠ Regex.Empty ∧ ¬ RMatch r [] := by
  refine ⟨(synthBuilt_not_eps_empty h1).1, (synthBuilt_not_eps_empty h1).2, ?_⟩
  intro hm
  rw [rmatch_nil_nullable hm rfl] at h2
  cases h2

/-! ## Closure of the per-label invariant -/

theorem labelOK_union {g0 : TGraph} {b : Bool} {x y : Regex}
    (hx : LabelOK g0 b x) (hy : LabelOK g0 b y) : LabelOK g0 b (Regex.Union x y) :=
  ⟨SynthBuilt.uni hx.1 hy.1, by simp [Regex.nullable, hx.2.1, hy.2.1],
    firstOK_union hx.2.2 hy.2.2⟩

theorem labelOK_rip {g0 : TGraph} {b : Bool} {lin lout : Regex} {rrip : Option Regex}
    (hin : LabelOK g0 b lin) (hout : SynthBuilt lout ∧ lout.nullable = false)
    (hr : ∀ rl, rrip = some rl → SynthBuilt rl) :
    LabelOK g0 b (ripLabel rrip lin lout) := by
  cases rrip with
  | none =>
    exact ⟨SynthBuilt.cat hin.1 hout.1, by simp [ripLabel, Regex.nullable, hin.2.1],
      firstOK_concat_left hin.2.1 hin.2.2⟩
  | some rl =>
    refine ⟨SynthBuilt.cat hin.1 (SynthBuilt.cat (SynthBuilt.star (hr rl rfl)) hout.1), ?_, ?_⟩
    · simp [ripLabel, Regex.nullable, hin.2.1]
    · exact firstOK_concat_left hin.2.1 hin.2.2

theorem labelOK_unionFoldList {g0 : TGraph} {b : Bool} :
    ∀ (l : List Edge) (c : Regex), LabelOK g0 b c → (∀ e ∈ l, LabelOK g0 b e.label) →
      LabelOK g0 b (l.foldl (fun acc e => Regex.Union acc e.label) c) := by
  intro l
  induction l with
  | nil => intro c hc _; exact hc
  | cons x xs ih =>
    intro c hc hl
    rw [List.foldl_cons]
    exact ih _ (labelOK_union hc (hl x (by simp))) (fun e he => hl e (by simp [he]))

/-! ## Generic fold lemmas -/

theorem foldl_pred {α β : Type} {Q : β → Prop} (f : β → α → β) :
    ∀ (L : List α) (b : β), Q b → (∀ c a, Q c → a ∈ L → Q (f c a)) → Q (L.foldl f b) := by
  intro L
  induction L with
  | nil => intro b hb _; exact hb
  | cons x xs ih =>
    intro b hb hstep
    rw [List.foldl_cons]
    exact ih (f b x) (hstep b x hb (by simp))
      (fun c a hc ha => hstep c a hc (List.mem_cons_of_mem x ha))

theorem unionFoldLabels_prop (Q : Regex → Prop)
    (hQ : ∀ a b, Q a → Q b → Q (Regex.Union a b)) :
    ∀ (es : List Edge) (acc : Option Regex),
      (∀ x, acc = some x → Q x) → (∀ e ∈ es, Q e.label) →
      ∀ r, es.foldl (fun acc e =>
          match acc with
          | none => some e.label
          | some r => some (Regex.Union r e.label)) acc = some r → Q r := by
  intro es
  induction es with
  | nil => intro acc hacc _ r hr; exact hacc r hr
  | cons e es ih =>
    intro acc hacc hes r hr
    rw [List.foldl_cons] at hr
    refine ih _ ?_ (fun f hf => hes f (List.mem_cons_of_mem e hf)) r hr
    intro x hx
    cases acc with
    | none =>
      cases hx
      exact hes e (by simp)
    | some r0 =>
      cases hx
      exact hQ r0 e.label (hacc r0 rfl) (hes e (by simp))

theorem unionFoldLabels_of (Q : Regex → Prop)
    (hQ : ∀ a b, Q a → Q b → Q (Regex.Union a b))
    (es : List Edge) (hes : ∀ e ∈ es, Q e.label)
    {r : Regex} (h : unionFoldLabels es = some r) : Q r :=
  unionFoldLabels_prop Q hQ es none (fun x hx => by cases hx) hes r h

/-! ## Edge-membership transport through the graph operations -/

theorem vtx_lookup_some {g : TGraph} {u : Nat} {w : Vtx}
    (h : g.vertices.lookup u = some w) : g.vtx u = w := by
  rw [TGraph.vtx, h]

theorem vtx_lookup_none {g : TGraph} {u : Nat}
    (h : g.vertices.lookup u = none) : g.vtx u = ⟨[], []⟩ := by
  rw [TGraph.vtx, h]

theorem wf_vtx_out {g : TGraph} (hg : g.wf) {u : Nat} {e : Edge}
    (h : e ∈ (g.vtx u).out_edges) : e.src = u := by
  cases hl : g.vertices.lookup u with
  | none =>
    rw [vtx_lookup_none hl] at h
    cases h
  | some w =>
    rw [vtx_lookup_some hl] at h
    exact (hg (u, w) (lookup_some_mem hl)).1 e h

theorem wf_vtx_in {g : TGraph} (hg : g.wf) {u : Nat} {e : Edge}
    (h : e ∈ (g.vtx u).in_edges) : e.dst = u := by
  cases hl : g.vertices.lookup u with
  | none =>
    rw [vtx_lookup_none hl] at h
    cases h
  | some w =>
    rw [vtx_lookup_some hl] at h
    exact (hg (u, w) (lookup_some_mem hl)).2 e h

theorem edgeIn_of_vtx_out {g : TGraph} {u : Nat} {e : Edge}
    (h : e ∈ (g.vtx u).out_edges) : g.edgeIn e := by
  cases hl : g.vertices.lookup u with
  | none =>
    rw [vtx_lookup_none hl] at h
    cases h
  | some w =>
    rw [vtx_lookup_some hl] at h
    exact ⟨(u, w), lookup_some_mem hl, Or.inl h⟩

theorem edgeIn_of_vtx_in {g : TGraph} {u : Nat} {e : Edge}
    (h : e ∈ (g.vtx u).in_edges) : g.edgeIn e := by
  cases hl : g.vertices.lookup u with
  | none =>
    rw [vtx_lookup_none hl] at h
    cases h
  | some w =>
    rw [vtx_lookup_some hl] at h
    exact ⟨(u, w), lookup_some_mem hl, Or.inr h⟩

theorem wf_vertices_congr {g h : TGraph} (he : g.vertices = h.vertices)
    (hg : g.wf) : h.wf := by
  intro p hp
  exact hg p (he ▸ hp)

theorem edgeIn_vertices_congr {g h : TGraph} (he : g.vertices = h.vertices) {e : Edge}
    (hg : g.edgeIn e) : h.edgeIn e := by
  obtain ⟨p, hp, hm⟩ := hg
  exact ⟨p, he ▸ hp, hm⟩

theorem elimInvP_vertices_congr {g0 g h : TGraph} (he : g.vertices = h.vertices)
    (hI : ElimInvP g0 g) : ElimInvP g0 h := by
  intro e hin
  exact hI e (edgeIn_vertices_congr he.symm hin)

theorem wf_updVtx {g : TGraph} {v : Nat} {f : Vtx → Vtx} (hg : g.wf)
    (hout : ∀ w : Vtx, ∀ x ∈ (f w).out_edges, x ∈ w.out_edges ∨ x.src = v)
    (hin : ∀ w : Vtx, ∀ x ∈ (f w).in_edges, x ∈ w.in_edges ∨ x.dst = v) :
    (g.updVtx v f).wf := by
  intro p hp
  simp only [TGraph.updVtx] at hp
  rcases List.mem_map.mp hp with ⟨q, hq, hpq⟩
  by_cases hqv : q.1 = v
  · rw [if_pos hqv] at hpq
    subst hpq
    constructor
    · intro e he
      rcases hout q.2 e he with h | h
      · exact (hg q hq).1 e h
      · exact h.trans hqv.symm
    · intro e he
      rcases hin q.2 e he with h | h
      · exact (hg q hq).2 e h
      · exact h.trans hqv.symm
  · rw [if_neg hqv] at hpq
    subst hpq
    exact hg q hq

theorem edgeIn_updVtx {g : TGraph} {v : Nat} {f : Vtx → Vtx} {e : Edge}
    (C : Edge → Prop) (h : (g.updVtx v f).edgeIn e)
    (hout : ∀ w : Vtx, ∀ x ∈ (f w).out_edges, x ∈ w.out_edges ∨ C x)
    (hin : ∀ w : Vtx, ∀ x ∈ (f w).in_edges, x ∈ w.in_edges ∨ C x) :
    g.edgeIn e ∨ C e := by
  obtain ⟨p, hp, hmem⟩ := h
  simp only [TGraph.updVtx] at hp
  rcases List.mem_map.mp hp with ⟨q, hq, hpq⟩
  by_cases hqv : q.1 = v
  · rw [if_pos hqv] at hpq
    subst hpq
    rcases hmem with hmem | hmem
    · rcases hout q.2 e hmem with h | h
      · exact Or.inl ⟨q, hq, Or.inl h⟩
      · exact Or.inr h
    · rcases hin q.2 e hmem with h | h
      · exact Or.inl ⟨q, hq, Or.inr h⟩
      · exact Or.inr h
  · rw [if_neg hqv] at hpq
    subst hpq
    exact Or.inl ⟨q, hq, hmem⟩

theorem elimInvP_updVtx {g0 g : TGraph} {v : Nat} {f : Vtx → Vtx}
    (hI : ElimInvP g0 g)
    (hout : ∀ w : Vtx, ∀ x ∈ (f w).out_edges,
      x ∈ w.out_edges ∨ LabelOK g0 x.accepting x.label)
    (hin : ∀ w : Vtx, ∀ x ∈ (f w).in_edges,
      x ∈ w.in_edges ∨ LabelOK g0 x.accepting x.label) :
    ElimInvP g0 (g.updVtx v f) := by
  intro e he
  rcases edgeIn_updVtx (fun x => LabelOK g0 x.accepting x.label) he hout hin with h | h
  · exact hI e h
  · exact h

theorem addEdge_vertices (g : TGraph) (s d : Nat) (l : Regex) (a : Bool) :
    (g.addEdge s d l a).vertices =
      ((g.updVtx s (fun w => { w with out_edges := w.out_edges ++ [⟨s, d, l, a⟩] })).updVtx d
        (fun w => { w with in_edges := w.in_edges ++ [⟨s, d, l, a⟩] })).vertices := by
  cases a <;> rfl

theorem wf_addEdge {g : TGraph} {s d : Nat} {l : Regex} {a : Bool} (hg : g.wf) :
    (g.addEdge s d l a).wf := by
  apply wf_vertices_congr (addEdge_vertices g s d l a).symm
  apply wf_updVtx
  · apply wf_updVtx hg
    · intro w x hx
      rcases List.mem_append.mp hx with h | h
      · exact Or.inl h
      · simp only [List.mem_singleton] at h
        subst h
        exact Or.inr rfl
    · exact fun w x hx => Or.inl hx
  · exact fun w x hx => Or.inl hx
  · intro w x hx
    rcases List.mem_append.mp hx with h | h
    · exact Or.inl h
    · simp only [List.mem_singleton] at h
      subst h
      exact Or.inr rfl

theorem edgeIn_addEdge {g : TGraph} {s d : Nat} {l : Regex} {a : Bool} {e : Edge}
    (h : (g.addEdge s d l a).edgeIn e) : g.edgeIn e ∨ e = ⟨s, d, l, a⟩ := by
  have h2 := edgeIn_vertices_congr (addEdge_vertices g s d l a) h
  have h3 := edgeIn_updVtx (fun x => x = (⟨s, d, l, a⟩ : Edge)) h2
    (fun w x hx => Or.inl hx)
    (fun w x hx => by
      rcases List.mem_append.mp hx with hh | hh
      · exact Or.inl hh
      · simp only [List.mem_singleton] at hh
        exact Or.inr hh)
  rcases h3 with h3 | h3
  · exact edgeIn_updVtx (fun x => x = (⟨s, d, l, a⟩ : Edge)) h3
      (fun w x hx => by
        rcases List.mem_append.mp hx with hh | hh
        · exact Or.inl hh
        · simp only [List.mem_singleton] at hh
          exact Or.inr hh)
      (fun w x hx => Or.inl hx)
  · exact Or.inr h3

theorem elimInvP_addEdge {g0 g : TGraph} {s d : Nat} {l : Regex} {a : Bool}
    (hI : ElimInvP g0 g) (hl : LabelOK g0 a l) :
    ElimInvP g0 (g.addEdge s d l a) := by
  intro e he
  rcases edgeIn_addEdge he with h | h
  · exact hI e h
  · subst h
    exact hl

theorem removeEdge_vertices (g : TGraph) (s d : Nat) (l : Regex) (a : Bool) :
    (g.removeEdge s d l a).vertices =
      ((g.updVtx s (fun w => { w with out_edges := removeFirst (remP s d l) w.out_edges })).updVtx d
        (fun w => { w with in_edges := removeFirst (remP s d l) w.in_edges })).vertices := by
  cases a <;>
    simp only [TGraph.removeEdge, apply_ite TGraph.vertices, ite_self] <;>
    rfl

theorem wf_removeEdge {g : TGraph} {s d : Nat} {l : Regex} {a : Bool} (hg : g.wf) :
    (g.removeEdge s d l a).wf := by
  apply wf_vertices_congr (removeEdge_vertices g s d l a).symm
  apply wf_updVtx
  · apply wf_updVtx hg
    · exact fun w x hx => Or.inl (mem_removeFirst hx)
    · exact fun w x hx => Or.inl hx
  · exact fun w x hx => Or.inl hx
  · exact fun w x hx => Or.inl (mem_removeFirst hx)

theorem edgeIn_removeEdge {g : TGraph} {s d : Nat} {l : Regex} {a : Bool} {e : Edge}
    (h : (g.removeEdge s d l a).edgeIn e) : g.edgeIn e := by
  have h2 := edgeIn_vertices_congr (removeEdge_vertices g s d l a) h
  have h3 := edgeIn_updVtx (fun _ => False) h2
    (fun w x hx => Or.inl hx)
    (fun w x hx => Or.inl (mem_removeFirst hx))
  rcases h3 with h3 | h3
  · rcases edgeIn_updVtx (fun _ => False) h3
      (fun w x hx => Or.inl (mem_removeFirst hx))
      (fun w x hx => Or.inl hx) with h4 | h4
    · exact h4
    · cases h4
  · cases h3

theorem elimInvP_removeEdge {g0 g : TGraph} {s d : Nat} {l : Regex} {a : Bool}
    (hI : ElimInvP g0 g) : ElimInvP g0 (g.removeEdge s d l a) := by
  intro e he
  exact hI e (edgeIn_removeEdge he)

/-! ## The invariant survives rip -/

theorem mem_ripAdded_full {g : TGraph} {v : Nat} {t : Nat × Nat × Regex × Bool}
    (h : t ∈ ripAdded g v) :
    ∃ ein ∈ (g.vtx v).in_edges, ∃ eout ∈ (g.vtx v).out_edges,
      t = (ein.src, eout.dst, ripLabel (ripRrip g v) ein.label eout.label, ein.accepting) := by
  rw [ripAdded] at h
  rcases List.mem_flatMap.mp h with ⟨ein, hinm, hmem⟩
  rcases List.mem_filterMap.mp hmem with ⟨eout, houtm, hsome⟩
  by_cases hc : ein.src = v ∨ eout.dst = v
  · rw [if_pos hc] at hsome
    cases hsome
  · rw [if_neg hc] at hsome
    exact ⟨ein, hinm, eout, houtm, (Option.some.inj hsome).symm⟩

theorem elimInv_ripStage1 {g0 g : TGraph} {v : Nat} (hI : ElimInv g0 g) :
    ElimInv g0 (ripStage1 g v) := by
  rw [ripStage1]
  refine foldl_pred _ _ _ hI ?_
  intro h ein hh _
  exact ⟨wf_updVtx hh.1 (fun w x hx => Or.inl (mem_removeFirst hx)) (fun w x hx => Or.inl hx),
    elimInvP_updVtx hh.2 (fun w x hx => Or.inl (mem_removeFirst hx)) (fun w x hx => Or.inl hx)⟩

theorem elimInv_ripStage2 {g0 g : TGraph} {v : Nat} (h1 : ElimInv g0 (ripStage1 g v)) :
    ElimInv g0 (ripStage2 g v) := by
  rw [ripStage2]
  refine foldl_pred _ _ _ h1 ?_
  intro h eout hh _
  exact ⟨wf_updVtx hh.1 (fun w x hx => Or.inl hx) (fun w x hx => Or.inl (mem_removeFirst hx)),
    elimInvP_updVtx hh.2 (fun w x hx => Or.inl hx) (fun w x hx => Or.inl (mem_removeFirst hx))⟩

theorem ripRrip_built {g0 g : TGraph} {v : Nat} (hI : ElimInvP g0 g) :
    ∀ rl, ripRrip g v = some rl → SynthBuilt rl := by
  intro rl hrl
  rw [ripRrip] at hrl
  rcases Option.map_eq_some'.mp hrl with ⟨e, he, hlab⟩
  rw [TGraph.selfLoop] at he
  have hmem : e ∈ (g.vtx v).out_edges := List.mem_of_find?_eq_some he
  rw [← hlab]
  exact (hI e (edgeIn_of_vtx_out hmem)).1

theorem elimInv_ripStage3 {g0 g : TGraph} {v : Nat}
    (hI : ElimInv g0 g) (h2 : ElimInv g0 (ripStage2 g v)) :
    ElimInv g0 (ripStage3 g v) := by
  rw [ripStage3]
  refine foldl_pred _ _ _ h2 ?_
  intro h t hh ht
  rcases mem_ripAdded_full ht with ⟨ein, hinm, eout, houtm, hteq⟩
  subst hteq
  refine ⟨wf_addEdge hh.1, elimInvP_addEdge hh.2 ?_⟩
  have hein := hI.2 ein (edgeIn_of_vtx_in hinm)
  have heout := hI.2 eout (edgeIn_of_vtx_out houtm)
  exact labelOK_rip hein ⟨heout.1, heout.2.1⟩ (ripRrip_built hI.2)

theorem elimInv_rip {g0 g : TGraph} {v : Nat} (hI : ElimInv g0 g) :
    ElimInv g0 (g.rip v) := by
  have h3 : ElimInv g0 (ripStage3 g v) :=
    elimInv_ripStage3 hI (elimInv_ripStage2 (elimInv_ripStage1 hI))
  constructor
  · intro p hp
    exact h3.1 p (List.mem_of_mem_filter hp)
  · intro e he
    obtain ⟨p, hp, hm⟩ := he
    exact h3.2 e ⟨p, List.mem_of_mem_filter hp, hm⟩

/-! ## The invariant survives duplicate-edge combining -/

theorem groups_mem_aux :
    ∀ (L : List Edge) (l : List Edge) (gs : List ((Nat × Nat × Bool) × List Edge)),
      (∀ kp ∈ gs, ∀ e ∈ kp.2, e ∈ l ∧ edgeKey e = kp.1) →
      (∀ x ∈ L, x ∈ l) →
      ∀ kp ∈ L.foldl addToGroups gs, ∀ e ∈ kp.2, e ∈ l ∧ edgeKey e = kp.1 := by
  intro L
  induction L with
  | nil => intro l gs hgs _ kp hkp; exact hgs kp hkp
  | cons x xs ih =>
    intro l gs hgs hL
    rw [List.foldl_cons]
    refine ih l _ ?_ (fun y hy => hL y (List.mem_cons_of_mem x hy))
    intro kp hkp e he
    rw [addToGroups] at hkp
    split at hkp
    · rcases List.mem_map.mp hkp with ⟨q, hq, hpq⟩
      by_cases hqx : q.1 = edgeKey x
      · rw [if_pos hqx] at hpq
        subst hpq
        rcases List.mem_append.mp he with h1 | h1
        · exact hgs q hq e h1
        · simp only [List.mem_singleton] at h1
          subst h1
          exact ⟨hL e (by simp), hqx.symm⟩
      · rw [if_neg hqx] at hpq
        subst hpq
        exact hgs q hq e he
    · rcases List.mem_append.mp hkp with h1 | h1
      · exact hgs kp h1 e he
      · simp only [List.mem_singleton] at h1
        subst h1
        simp only [List.mem_singleton] at he
        subst he
        exact ⟨hL e (by simp), rfl⟩

theorem edgeGroups_mem {g : TGraph} {kp : (Nat × Nat × Bool) × List Edge}
    (hkp : kp ∈ g.edgeGroups) {e : Edge} (he : e ∈ kp.2) :
    e ∈ g.allOut ∧ edgeKey e = kp.1 := by
  rw [TGraph.edgeGroups] at hkp
  exact groups_mem_aux g.allOut g.allOut []
    (fun kq hkq => by cases hkq) (fun x hx => hx) kp hkp e he

theorem allOut_edgeIn {g : TGraph} {e : Edge} (h : e ∈ g.allOut) : g.edgeIn e := by
  rw [TGraph.allOut] at h
  rcases List.mem_flatMap.mp h with ⟨p, hp, hm⟩
  exact ⟨p, hp, Or.inl hm⟩

theorem elimInv_combineGroup {g0 h : TGraph} {es : List Edge}
    (hI : ElimInv g0 h)
    (hes : ∀ e ∈ es, LabelOK g0 e.accepting e.label)
    (hflag : ∀ e ∈ es, ∀ f ∈ es, e.accepting = f.accepting) :
    ElimInv g0 (combineGroup h es) := by
  match es with
  | [] => exact hI
  | [e] => exact hI
  | e0 :: e1 :: rest =>
    simp only [combineGroup]
    refine foldl_pred _ _ _ ?_
      (fun c a hc _ => ⟨wf_removeEdge hc.1, elimInvP_removeEdge hc.2⟩)
    have hnew : LabelOK g0 e0.accepting
        ((e1 :: rest).foldl (fun acc e => Regex.Union acc e.label) e0.label) := by
      refine labelOK_unionFoldList _ _ (hes e0 (by simp)) ?_
      intro e he
      have hfe : e.accepting = e0.accepting :=
        hflag e (List.mem_cons_of_mem e0 he) e0 (by simp)
      have := hes e (List.mem_cons_of_mem e0 he)
      rwa [hfe] at this
    constructor
    · apply wf_updVtx
      · apply wf_updVtx hI.1
        · intro w x hx
          rcases mem_replaceFirst hx with h1 | h1
          · exact Or.inl h1
          · subst h1
            exact Or.inr rfl
        · exact fun w x hx => Or.inl hx
      · exact fun w x hx => Or.inl hx
      · intro w x hx
        rcases mem_replaceFirst hx with h1 | h1
        · exact Or.inl h1
        · subst h1
          exact Or.inr rfl
    · apply elimInvP_updVtx
      · apply elimInvP_updVtx hI.2
        · intro w x hx
          rcases mem_replaceFirst hx with h1 | h1
          · exact Or.inl h1
          · subst h1
            exact Or.inr hnew
        · exact fun w x hx => Or.inl hx
      · exact fun w x hx => Or.inl hx
      · intro w x hx
        rcases mem_replaceFirst hx with h1 | h1
        · exact Or.inl h1
        · subst h1
          exact Or.inr hnew

theorem elimInv_combineDuplicateEdge {g0 g : TGraph} (hI : ElimInv g0 g) :
    ElimInv g0 g.combineDuplicateEdge := by
  rw [TGraph.combineDuplicateEdge]
  refine foldl_pred _ _ _ hI ?_
  intro h kp hh hkp
  refine elimInv_combineGroup hh
    (fun e he => hI.2 e (allOut_edgeIn (edgeGroups_mem hkp he).1)) ?_
  intro e he f hf
  have h1 := (edgeGroups_mem hkp he).2
  have h2 := (edgeGroups_mem hkp hf).2
  exact congrArg (fun t => t.2.2) (h1.trans h2.symm)

/-! ## The invariant through the elimination loop -/

theorem elimInv_elimLoop {g0 : TGraph} :
    ∀ (fuel : Nat) (g : TGraph) (vs ve : Nat), ElimInv g0 g →
      ElimInv g0 (elimLoop fuel g vs ve) := by
  intro fuel
  induction fuel with
  | zero => intro g vs ve hI; exact hI
  | succ n ih =>
    intro g vs ve hI
    rw [elimLoop]
    cases hfd : g.findRipVertex vs ve with
    | none => exact hI
    | some v => exact ih _ vs ve (elimInv_combineDuplicateEdge (elimInv_rip hI))

theorem symbolic_of_labels {g : TGraph} (hsym : g.labelsSymbolic) :
    ∀ e : Edge, g.edgeIn e → ∃ s, e.label = Regex.Symbol s := by
  intro e he
  obtain ⟨p, hp, hm⟩ := he
  have hb : e.label.isSymbol = true := by
    rcases hm with hm | hm
    · exact (hsym p hp).1 e hm
    · exact (hsym p hp).2 e hm
  cases hl : e.label
  case Symbol s0 => exact ⟨s0, rfl⟩
  all_goals (rw [hl] at hb; simp [Regex.isSymbol] at hb)

theorem elimInvP_init {g : TGraph} (hsym : g.labelsSymbolic) : ElimInvP g g := by
  intro e he
  rcases symbolic_of_labels hsym e he with ⟨s, hs⟩
  rw [hs]
  refine ⟨SynthBuilt.sym s, rfl, ?_⟩
  intro x rest hm
  have hxr := rmatch_symbol_inv hm
  injection hxr with h1 h2
  subst h1
  exact ⟨e, he, rfl, hs⟩

theorem elimInv_init {g : TGraph} (hwf : g.wf) (hsym : g.labelsSymbolic) :
    ElimInv g g :=
  ⟨hwf, elimInvP_init hsym⟩

/-! ## The label invariant alone survives the same operations -/

theorem elimInvP_ripStage1 {g0 g : TGraph} {v : Nat} (hI : ElimInvP g0 g) :
    ElimInvP g0 (ripStage1 g v) := by
  rw [ripStage1]
  refine foldl_pred _ _ _ hI ?_
  intro h ein hh _
  exact elimInvP_updVtx hh (fun w x hx => Or.inl (mem_removeFirst hx))
    (fun w x hx => Or.inl hx)

theorem elimInvP_ripStage2 {g0 g : TGraph} {v : Nat}
    (h1 : ElimInvP g0 (ripStage1 g v)) : ElimInvP g0 (ripStage2 g v) := by
  rw [ripStage2]
  refine foldl_pred _ _ _ h1 ?_
  intro h eout hh _
  exact elimInvP_updVtx hh (fun w x hx => Or.inl hx)
    (fun w x hx => Or.inl (mem_removeFirst hx))

theorem elimInvP_ripStage3 {g0 g : TGraph} {v : Nat}
    (hI : ElimInvP g0 g) (h2 : ElimInvP g0 (ripStage2 g v)) :
    ElimInvP g0 (ripStage3 g v) := by
  rw [ripStage3]
  refine foldl_pred _ _ _ h2 ?_
  intro h t hh ht
  rcases mem_ripAdded_full ht with ⟨ein, hinm, eout, houtm, hteq⟩
  subst hteq
  refine elimInvP_addEdge hh ?_
  have hein := hI ein (edgeIn_of_vtx_in hinm)
  have heout := hI eout (edgeIn_of_vtx_out houtm)
  exact labelOK_rip hein ⟨heout.1, heout.2.1⟩ (ripRrip_built hI)

theorem elimInvP_rip {g0 g : TGraph} {v : Nat} (hI : ElimInvP g0 g) :
    ElimInvP g0 (g.rip v) := by
  have h3 : ElimInvP g0 (ripStage3 g v) :=
    elimInvP_ripStage3 hI (elimInvP_ripStage2 (elimInvP_ripStage1 hI))
  intro e he
  obtain ⟨p, hp, hm⟩ := he
  exact h3 e ⟨p, List.mem_of_mem_filter hp, hm⟩

theorem elimInvP_combineGroup {g0 h : TGraph} {es : List Edge}
    (hI : ElimInvP g0 h)
    (hes : ∀ e ∈ es, LabelOK g0 e.accepting e.label)
    (hflag : ∀ e ∈ es, ∀ f ∈ es, e.accepting = f.accepting) :
    ElimInvP g0 (combineGroup h es) := by
  match es with
  | [] => exact hI
  | [e] => exact hI
  | e0 :: e1 :: rest =>
    simp only [combineGroup]
    refine foldl_pred _ _ _ ?_ (fun c a hc _ => elimInvP_removeEdge hc)
    have hnew : LabelOK g0 e0.accepting
        ((e1 :: rest).foldl (fun acc e => Regex.Union acc e.label) e0.label) := by
      refine labelOK_unionFoldList _ _ (hes e0 (by simp)) ?_
      intro e he
      have hfe : e.accepting = e0.accepting :=
        hflag e (List.mem_cons_of_mem e0 he) e0 (by simp)
      have hLL := hes e (List.mem_cons_of_mem e0 he)
      rwa [hfe] at hLL
    apply elimInvP_updVtx
    · apply elimInvP_updVtx hI
      · intro w x hx
        rcases mem_replaceFirst hx with h1 | h1
        · exact Or.inl h1
        · subst h1
          exact Or.inr hnew
      · exact fun w x hx => Or.inl hx
    · exact fun w x hx => Or.inl hx
    · intro w x hx
      rcases mem_replaceFirst hx with h1 | h1
      · exact Or.inl h1
      · subst h1
        exact Or.inr hnew

theorem elimInvP_combineDuplicateEdge {g0 g : TGraph} (hI : ElimInvP g0 g) :
    ElimInvP g0 g.combineDuplicateEdge := by
  rw [TGraph.combineDuplicateEdge]
  refine foldl_pred _ _ _ hI ?_
  intro h kp hh hkp
  refine elimInvP_combineGroup hh
    (fun e he => hI e (allOut_edgeIn (edgeGroups_mem hkp he).1)) ?_
  intro e he f hf
  exact congrArg (fun t => t.2.2)
    ((edgeGroups_mem hkp he).2.trans (edgeGroups_mem hkp hf).2.symm)

theorem elimInvP_elimLoop {g0 : TGraph} :
    ∀ (fuel : Nat) (g : TGraph) (vs ve : Nat), ElimInvP g0 g →
      ElimInvP g0 (elimLoop fuel g vs ve) := by
  intro fuel
  induction fuel with
  | zero => intro g vs ve hI; exact hI
  | succ n ih =>
    intro g vs ve hI
    rw [elimLoop]
    cases hfd : g.findRipVertex vs ve with
    | none => exact hI
    | some v => exact ih _ vs ve (elimInvP_combineDuplicateEdge (elimInvP_rip hI))

/-! ## The McNaughton-Yamada recursion builds non-nullable expressions -/

theorem mcnyR_base_sub (g : TGraph) (i : Nat) (acc : Option Bool) (ip jp : Nat) :
    ∃ l : List Edge, mcnyR g i acc 0 ip jp = unionFoldLabels l ∧
      ∀ e ∈ l, e ∈ g.transOf ip jp := by
  simp only [mcnyR]
  by_cases hip : ip = i
  · rw [if_pos hip]
    cases acc with
    | none => exact ⟨g.transOf ip jp, rfl, fun e he => he⟩
    | some b =>
      cases b with
      | true => exact ⟨_, rfl, fun e he => List.mem_of_mem_filter he⟩
      | false => exact ⟨_, rfl, fun e he => List.mem_of_mem_filter he⟩
  · rw [if_neg hip]
    exact ⟨g.transOf ip jp, rfl, fun e he => he⟩

theorem mcnyR_built {g : TGraph}
    (hsym : ∀ e : Edge, g.edgeIn e → ∃ s, e.label = Regex.Symbol s)
    (i : Nat) (acc : Option Bool) :
    ∀ (n ip jp : Nat) (r : Regex), mcnyR g i acc n ip jp = some r →
      SynthBuilt r ∧ r.nullable = false := by
  intro n
  induction n with
  | zero =>
    intro ip jp r h
    obtain ⟨l, hl, hsub⟩ := mcnyR_base_sub g i acc ip jp
    rw [hl] at h
    refine unionFoldLabels_of (fun x => SynthBuilt x ∧ x.nullable = false) ?_ l ?_ h
    · intro a b ha hb
      exact ⟨SynthBuilt.uni ha.1 hb.1, by simp [Regex.nullable, ha.2, hb.2]⟩
    · intro e he
      rcases hsym e (edgeIn_of_vtx_out (List.mem_of_mem_filter (hsub e he))) with ⟨s, hs⟩
      rw [hs]
      exact ⟨SynthBuilt.sym s, rfl⟩
  | succ n ih =>
    intro ip jp r h
    simp only [mcnyR] at h
    by_cases h1 : n = jp
    · rw [if_pos h1] at h
      exact ih ip jp r h
    · rw [if_neg h1] at h
      by_cases h2 : n = ip
      · rw [if_pos h2] at h
        cases hrep : mcnyR g i acc n ip ip with
        | none =>
          rw [hrep] at h
          exact ih ip jp r h
        | some rep =>
          rw [hrep] at h
          cases hgo : mcnyR g i acc n ip jp with
          | none =>
            rw [hgo] at h
            exact Option.noConfusion h
          | some go =>
            rw [hgo] at h
            have hr := Option.some.inj h
            subst hr
            have hb1 := ih ip ip rep hrep
            have hb2 := ih ip jp go hgo
            exact ⟨SynthBuilt.cat (SynthBuilt.star hb1.1) hb2.1,
              by simp [Regex.nullable, hb2.2]⟩
      · rw [if_neg h2] at h
        cases hprev : mcnyR g i acc n ip n with
        | none =>
          rw [hprev] at h
          exact ih ip jp r h
        | some pv =>
          rw [hprev] at h
          cases hgo : mcnyR g i acc n n jp with
          | none =>
            rw [hgo] at h
            exact ih ip jp r h
          | some gv =>
            rw [hgo] at h
            have hpv := ih ip n pv hprev
            have hgv := ih n jp gv hgo
            cases hrep : mcnyR g i acc n n n with
            | none =>
              rw [hrep] at h
              cases hij : mcnyR g i acc n ip jp with
              | none =>
                rw [hij] at h
                have hr := Option.some.inj h
                subst hr
                exact ⟨SynthBuilt.cat hpv.1 hgv.1, by simp [Regex.nullable, hpv.2]⟩
              | some ijv =>
                rw [hij] at h
                have hr := Option.some.inj h
                subst hr
                have hijv := ih ip jp ijv hij
                exact ⟨SynthBuilt.uni hijv.1 (SynthBuilt.cat hpv.1 hgv.1),
                  by simp [Regex.nullable, hijv.2, hpv.2]⟩
            | some rv =>
              rw [hrep] at h
              have hrv := ih n n rv hrep
              cases hij : mcnyR g i acc n ip jp with
              | none =>
                rw [hij] at h
                have hr := Option.some.inj h
                subst hr
                exact ⟨SynthBuilt.cat hpv.1
                    (SynthBuilt.cat (SynthBuilt.star hrv.1) hgv.1),
                  by simp [Regex.nullable, hpv.2]⟩
              | some ijv =>
                rw [hij] at h
                have hr := Option.some.inj h
                subst hr
                have hijv := ih ip jp ijv hij
                exact ⟨SynthBuilt.uni hijv.1 (SynthBuilt.cat hpv.1
                    (SynthBuilt.cat (SynthBuilt.star hrv.1) hgv.1)),
                  by simp [Regex.nullable, hijv.2, hpv.2]⟩

theorem mcnyR_first {g : TGraph}
    (hsym : ∀ e : Edge, g.edgeIn e → ∃ s, e.label = Regex.Symbol s)
    (i : Nat) (b : Bool) :
    ∀ (n jp : Nat) (r : Regex), mcnyR g i (some b) n i jp = some r →
      firstOK (g.edgeLetter b) r := by
  intro n
  induction n with
  | zero =>
    intro jp r h
    simp only [mcnyR, if_true] at h
    cases b with
    | true =>
      refine unionFoldLabels_of (firstOK (g.edgeLetter true))
        (fun a c ha hc => firstOK_union ha hc) _ ?_ h
      intro e he
      have hmem := List.mem_filter.mp he
      have hout : e ∈ (g.vtx i).out_edges := List.mem_of_mem_filter hmem.1
      rcases hsym e (edgeIn_of_vtx_out hout) with ⟨s, hs⟩
      rw [hs]
      intro x rest hm
      have hxr := rmatch_symbol_inv hm
      injection hxr with hx1 hx2
      subst hx1
      exact ⟨e, edgeIn_of_vtx_out hout, hmem.2, hs⟩
    | false =>
      refine unionFoldLabels_of (firstOK (g.edgeLetter false))
        (fun a c ha hc => firstOK_union ha hc) _ ?_ h
      intro e he
      have hmem := List.mem_filter.mp he
      have hout : e ∈ (g.vtx i).out_edges := List.mem_of_mem_filter hmem.1
      have hacc : e.accepting = false := by simpa using hmem.2
      rcases hsym e (edgeIn_of_vtx_out hout) with ⟨s, hs⟩
      rw [hs]
      intro x rest hm
      have hxr := rmatch_symbol_inv hm
      injection hxr with hx1 hx2
      subst hx1
      exact ⟨e, edgeIn_of_vtx_out hout, hacc, hs⟩
  | succ n ih =>
    intro jp r h
    simp only [mcnyR] at h
    by_cases h1 : n = jp
    · rw [if_pos h1] at h
      exact ih jp r h
    · rw [if_neg h1] at h
      by_cases h2 : n = i
      · rw [if_pos h2] at h
        cases hrep : mcnyR g i (some b) n i i with
        | none =>
          rw [hrep] at h
          exact ih jp r h
        | some rep =>
          rw [hrep] at h
          cases hgo : mcnyR g i (some b) n i jp with
          | none =>
            rw [hgo] at h
            exact Option.noConfusion h
          | some go =>
            rw [hgo] at h
            have hr := Option.some.inj h
            subst hr
            exact firstOK_concat_star (ih i rep hrep) (ih jp go hgo)
      · rw [if_neg h2] at h
        cases hprev : mcnyR g i (some b) n i n with
        | none =>
          rw [hprev] at h
          exact ih jp r h
        | some pv =>
          rw [hprev] at h
          cases hgo : mcnyR g i (some b) n n jp with
          | none =>
            rw [hgo] at h
            exact ih jp r h
          | some gv =>
            rw [hgo] at h
            have hpv := ih n pv hprev
            have hpvb := mcnyR_built hsym i (some b) n i n pv hprev
            cases hrep : mcnyR g i (some b) n n n with
            | none =>
              rw [hrep] at h
              cases hij : mcnyR g i (some b) n i jp with
              | none =>
                rw [hij] at h
                have hr := Option.some.inj h
                subst hr
                exact firstOK_concat_left hpvb.2 hpv
              | some ijv =>
                rw [hij] at h
                have hr := Option.some.inj h
                subst hr
                exact firstOK_union (ih jp ijv hij) (firstOK_concat_left hpvb.2 hpv)
            | some rv =>
              rw [hrep] at h
              cases hij : mcnyR g i (some b) n i jp with
              | none =>
                rw [hij] at h
                have hr := Option.some.inj h
                subst hr
                exact firstOK_concat_left hpvb.2 hpv
              | some ijv =>
                rw [hij] at h
                have hr := Option.some.inj h
                subst hr
                exact firstOK_union (ih jp ijv hij) (firstOK_concat_left hpvb.2 hpv)

/-! ## The three path queries return synthesis-built non-nullable results -/

theorem elimFold_built {g : TGraph} {vs ve : Nat} (hsym : g.labelsSymbolic)
    (p : Edge → Bool) {r : Regex}
    (h : unionFoldLabels
      (((elimLoop g.vertices.length g vs ve).vtx vs).out_edges.filter p) = some r) :
    SynthBuilt r ∧ r.nullable = false := by
  have hI : ElimInvP g (elimLoop g.vertices.length g vs ve) :=
    elimInvP_elimLoop g.vertices.length g vs ve (elimInvP_init hsym)
  refine unionFoldLabels_of (fun x => SynthBuilt x ∧ x.nullable = false) ?_ _ ?_ h
  · intro a c ha hc
    exact ⟨SynthBuilt.uni ha.1 hc.1, by simp [Regex.nullable, ha.2, hc.2]⟩
  · intro e he
    have hLL := hI e (edgeIn_of_vtx_out (List.mem_of_mem_filter he))
    exact ⟨hLL.1, hLL.2.1⟩

theorem combineFinal_built {r1 : Option Regex} {r2v : Regex}
    (h1 : ∀ a, r1 = some a → SynthBuilt a ∧ a.nullable = false)
    (h2 : SynthBuilt r2v ∧ r2v.nullable = false) :
    SynthBuilt (combineFinal r1 r2v) ∧ (combineFinal r1 r2v).nullable = false := by
  cases r1 with
  | none => exact h2
  | some a =>
    have ha := h1 a rfl
    exact ⟨SynthBuilt.cat (SynthBuilt.star ha.1) h2.1,
      by simp [combineFinal, Regex.nullable, h2.2]⟩

theorem findPath_built {g : TGraph} {vs ve : Nat} (hsym : g.labelsSymbolic) {r : Regex}
    (h : g.findPath vs ve = some r) : SynthBuilt r ∧ r.nullable = false := by
  simp only [TGraph.findPath] at h
  split at h
  · exact Option.noConfusion h
  · rename_i r2v hr2
    have h2 := elimFold_built hsym _ hr2
    split at h
    · have hr := Option.some.inj h
      subst hr
      exact h2
    · have hr := Option.some.inj h
      subst hr
      exact combineFinal_built (fun a ha => elimFold_built hsym _ ha) h2

theorem findAccpath_built {g : TGraph} {vs ve : Nat} (hsym : g.labelsSymbolic) {r : Regex}
    (h : g.findAccpath vs ve = some r) : SynthBuilt r ∧ r.nullable = false := by
  simp only [TGraph.findAccpath] at h
  split at h
  · exact Option.noConfusion h
  · rename_i r2v hr2
    have h2 := elimFold_built hsym _ hr2
    split at h
    · have hr := Option.some.inj h
      subst hr
      exact h2
    · have hr := Option.some.inj h
      subst hr
      exact combineFinal_built (fun a ha => elimFold_built hsym _ ha) h2

theorem findNonaccpath_built {g : TGraph} {vs ve : Nat} (hsym : g.labelsSymbolic) {r : Regex}
    (h : g.findNonaccpath vs ve = some r) : SynthBuilt r ∧ r.nullable = false := by
  simp only [TGraph.findNonaccpath] at h
  split at h
  · exact Option.noConfusion h
  · rename_i r2v hr2
    have h2 := elimFold_built hsym _ hr2
    split at h
    · have hr := Option.some.inj h
      subst hr
      exact h2
    · have hr := Option.some.inj h
      subst hr
      exact combineFinal_built (fun a ha => elimFold_built hsym _ ha) h2

theorem mcny_built {g : TGraph} {vs ve : Nat} {acc : Option Bool} (hsym : g.labelsSymbolic)
    {r : Regex} (h : g.mcny vs ve acc = some r) : SynthBuilt r ∧ r.nullable = false :=
  mcnyR_built (symbolic_of_labels hsym) vs acc g.num_states vs ve r h

/-- C6: on a transition graph with Symbol-labelled, endpoint-consistent
adjacency lists (the shape aut_to_tgraph produces), every word of the
accepting-cycle expression returned for a final state f by either backend
(find_accpath f f for StateElim, mcnaughton_yamada with acc = True for
McNY) opens with the letter of an accepting edge of the input graph, and
every word of the non-accepting-cycle expression (find_nonaccpath f f, or
acc = False) opens with the letter of a non-accepting edge. -/
theorem C6_first_letter (g : TGraph) (f : Nat) (hwf : g.wf) (hsym : g.labelsSymbolic) :
    (∀ r, g.findAccpath f f = some r → firstOK (g.edgeLetter true) r) ∧
    (∀ r, g.findNonaccpath f f = some r → firstOK (g.edgeLetter false) r) ∧
    (∀ r, g.mcny f f (some true) = some r → firstOK (g.edgeLetter true) r) ∧
    (∀ r, g.mcny f f (some false) = some r → firstOK (g.edgeLetter false) r) := by
  have hI : ElimInv g (elimLoop g.vertices.length g f f) :=
    elimInv_elimLoop g.vertices.length g f f (elimInv_init hwf hsym)
  refine ⟨?_, ?_, ?_, ?_⟩
  · intro r h
    simp only [TGraph.findAccpath] at h
    split at h
    · exact Option.noConfusion h
    · rename_i r2v hr2
      split at h
      · have hr := Option.some.inj h
        subst hr
        refine unionFoldLabels_of (firstOK (g.edgeLetter true))
          (fun a c ha hc => firstOK_union ha hc) _ ?_ hr2
        intro e he
        have hmf := List.mem_filter.mp he
        have hsrc : e.src = f := wf_vtx_out hI.1 hmf.1
        have hcond := hmf.2
        rw [hsrc] at hcond
        simp at hcond
        have hfo := (hI.2 e (edgeIn_of_vtx_out hmf.1)).2.2
        rwa [hcond.2] at hfo
      · rename_i hff
        exact absurd trivial hff
  · intro r h
    simp only [TGraph.findNonaccpath] at h
    split at h
    · exact Option.noConfusion h
    · rename_i r2v hr2
      split at h
      · have hr := Option.some.inj h
        subst hr
        refine unionFoldLabels_of (firstOK (g.edgeLetter false))
          (fun a c ha hc => firstOK_union ha hc) _ ?_ hr2
        intro e he
        have hmf := List.mem_filter.mp he
        have hsrc : e.src = f := wf_vtx_out hI.1 hmf.1
        have hcond := hmf.2
        rw [hsrc] at hcond
        simp at hcond
        have hfo := (hI.2 e (edgeIn_of_vtx_out hmf.1)).2.2
        rwa [hcond.2] at hfo
      · rename_i hff
        exact absurd trivial hff
  · intro r h
    exact mcnyR_first (symbolic_of_labels hsym) f true g.num_states f r h
  · intro r h
    exact mcnyR_first (symbolic_of_labels hsym) f false g.num_states f r h

/-- Witness for C6 at the two-state scenario graph: the accepting cycle at
final state 1 is Symbol b and its only word opens with the accepting b
edge. -/
theorem C6_first_letter_witness :
    gTwo.wf ∧ gTwo.labelsSymbolic ∧
      gTwo.findAccpath 1 1 = some (Regex.Symbol "b") ∧ gTwo.edgeLetter true "b" :=
  ⟨by decide, by decide, by decide,
    (C6_first_letter gTwo 1 (by decide) (by decide)).1 (Regex.Symbol "b") (by decide)
      "b" [] (RMatch.sym "b")⟩

/-- C10: on a transition graph whose adjacency labels are all Symbol leaves
(the graphs produced by aut_to_tgraph), every non-None expression returned
by mcnaughton_yamada or by the StateElim path queries find_path,
find_accpath and find_nonaccpath is neither Epsilon nor Empty and its
language contains no empty word: a missing path is reported only by the
None sentinel, and a cycle query from f to f never admits the zero-length
path. -/
theorem C10_no_epsilon (g : TGraph) (vs ve : Nat) (acc : Option Bool)
    (hsym : g.labelsSymbolic) :
    (∀ r, g.findPath vs ve = some r →
      r ≠ Regex.Epsilon ∧ r ≠ Regex.Empty ∧ ¬ RMatch r []) ∧
    (∀ r, g.findAccpath vs ve = some r →
      r ≠ Regex.Epsilon ∧ r ≠ Regex.Empty ∧ ¬ RMatch r []) ∧
    (∀ r, g.findNonaccpath vs ve = some r →
      r ≠ Regex.Epsilon ∧ r ≠ Regex.Empty ∧ ¬ RMatch r []) ∧
    (∀ r, g.mcny vs ve acc = some r →
      r ≠ Regex.Epsilon ∧ r ≠ Regex.Empty ∧ ¬ RMatch r []) := by
  refine ⟨fun r h => ?_, fun r h => ?_, fun r h => ?_, fun r h => ?_⟩
  · obtain ⟨h1, h2⟩ := findPath_built hsym h
    exact builtNonNull_props h1 h2
  · obtain ⟨h1, h2⟩ := findAccpath_built hsym h
    exact builtNonNull_props h1 h2
  · obtain ⟨h1, h2⟩ := findNonaccpath_built hsym h
    exact builtNonNull_props h1 h2
  · obtain ⟨h1, h2⟩ := mcny_built hsym h
    exact builtNonNull_props h1 h2

/-- Witness for C10 at the two-state scenario graph: the prefix query from
the initial state to the final state returns Symbol a, which is neither
Epsilon nor Empty and matches no empty word. -/
theorem C10_no_epsilon_witness :
    gTwo.labelsSymbolic ∧ gTwo.findPath 0 1 = some (Regex.Symbol "a") ∧
      (Regex.Symbol "a" ≠ Regex.Epsilon ∧ Regex.Symbol "a" ≠ Regex.Empty ∧
        ¬ RMatch (Regex.Symbol "a") []) :=
  ⟨by decide, by decide,
    (C10_no_epsilon gTwo 0 1 (some true) (by decide)).1 (Regex.Symbol "a") (by decide)⟩

end NES
